import Mathlib

/-!
Verification development for the `pervasive.py` engine: a batch analyzer of
monthly web-crawl snapshots that builds an origin → path → date → content-hash
occurrence index, classifies paths (pervasive-fixed, excluded, clustered),
synthesizes wildcard URL patterns from clusters of similar paths, validates
each pattern against a monthly pervasiveness threshold, and deduplicates the
accepted patterns.

The definitions below are a shallow embedding of the functions of
`src/pervasive.py` (class `Collect`).  Python dictionaries are modelled as
insertion-ordered association lists, Python exceptions as `Except`, and the
float comparisons of the source as exact rational comparisons (the operands
are small integers, where float64 arithmetic is exact enough that the
comparisons agree).  `difflib.SequenceMatcher` (standard library) is embedded
by its published algorithm, specialized to the no-junk case: the engine only
compares strings shorter than 200 characters (it removes URLs longer than
`MAX_URL_LENGTH = 200` first), so the autojunk popularity heuristic, which
requires sequences of length at least 200, never fires.
-/

namespace Pervasive

/-! ## Wildcard pattern matching (`Collect.url_matches_pattern`)

The source builds `re.escape(pattern).replace("\\*", ".*")` and calls
`re.fullmatch`.  After `re.escape`, every character of the pattern is a
regex literal; the replacement then turns exactly the escaped `*` characters
into `.*`.  The compiled regex is therefore a concatenation of literal
characters and `.*` atoms, which we model directly.  Python's `.` (without
`re.DOTALL`) matches any character except a newline. -/

/-- One atom of the compiled regex: a literal character, or `.*`. -/
inductive GElem where
  | lit (c : Char)
  | star
deriving DecidableEq, Repr

/-- Compilation performed by `url_matches_pattern`: each `*` of the pattern
becomes a `.*` atom, every other character a literal. -/
def compilePat (p : List Char) : List GElem :=
  p.map fun c => if c = '*' then GElem.star else GElem.lit c

/-- Python `.` without `re.DOTALL`: any character except a newline. -/
def dotMatches (c : Char) : Bool := c != '\n'

/-- The suffixes a `.*` atom can leave of a string: the results of removing
some newline-free prefix. -/
def starRests : List Char → List (List Char)
  | [] => [[]]
  | x :: xs => (x :: xs) :: (if dotMatches x then starRests xs else [])

/-- Acceptance of a string by a concatenation of literal and `.*` atoms,
anchored at both ends (Python `re.fullmatch`). -/
def reFullmatch : List GElem → List Char → Bool
  | [], s => s.isEmpty
  | GElem.lit _ :: _, [] => false
  | GElem.lit c :: ps, x :: xs => c == x && reFullmatch ps xs
  | GElem.star :: ps, s => (starRests s).any (reFullmatch ps)

/-- `Collect.url_matches_pattern` (pervasive.py lines 89-96): an exact string
comparison when the pattern has no `*`, otherwise the compiled regex, fully
anchored. -/
def url_matches_pattern (url pat : String) : Bool :=
  if pat.data.contains '*' then reFullmatch (compilePat pat.data) url.data
  else url == pat

/-- Declarative acceptance for the compiled regex: the string is the
concatenation of the atoms' matches, where a `.*` atom contributes an
arbitrary newline-free run. -/
inductive REM : List GElem → List Char → Prop where
  | nil : REM [] []
  | lit {ps : List GElem} {u : List Char} (c : Char) (h : REM ps u) :
      REM (GElem.lit c :: ps) (c :: u)
  | star {ps : List GElem} {u : List Char} (w : List Char)
      (hw : ∀ c ∈ w, dotMatches c = true) (h : REM ps u) :
      REM (GElem.star :: ps) (w ++ u)

/-- Wildcard semantics as implemented: the url equals the pattern with every
`*` of the pattern replaced by some possibly-empty run of non-newline
characters, and every other character compared literally. -/
inductive GlobSpec : List Char → List Char → Prop where
  | nil : GlobSpec [] []
  | lit {u p : List Char} (c : Char) (hc : c ≠ '*') (h : GlobSpec u p) :
      GlobSpec (c :: u) (c :: p)
  | star {u p : List Char} (w : List Char) (hw : ∀ c ∈ w, c ≠ '\n')
      (h : GlobSpec u p) : GlobSpec (w ++ u) ('*' :: p)

/-- Modelled from the claim wording of C3: the url equals the pattern with
each `*` replaced by some possibly-empty run of arbitrary characters (no
newline restriction), every non-`*` character compared literally. -/
inductive GlobSpecAny : List Char → List Char → Prop where
  | nil : GlobSpecAny [] []
  | lit {u p : List Char} (c : Char) (hc : c ≠ '*') (h : GlobSpecAny u p) :
      GlobSpecAny (c :: u) (c :: p)
  | star {u p : List Char} (w : List Char) (h : GlobSpecAny u p) :
      GlobSpecAny (w ++ u) ('*' :: p)

theorem mem_starRests_iff {s rest : List Char} :
    rest ∈ starRests s ↔
      ∃ w, s = w ++ rest ∧ ∀ c ∈ w, dotMatches c = true := by
  induction s generalizing rest with
  | nil =>
    simp only [starRests, List.mem_singleton]
    constructor
    · rintro rfl; exact ⟨[], rfl, by simp⟩
    · rintro ⟨w, hw, -⟩
      cases w with
      | nil => simpa using hw.symm
      | cons c w => simp at hw
  | cons x xs ih =>
    simp only [starRests, List.mem_cons]
    constructor
    · rintro (rfl | hmem)
      · exact ⟨[], rfl, by simp⟩
      · by_cases hd : dotMatches x = true
        · rw [if_pos hd] at hmem
          obtain ⟨w, rfl, hw⟩ := ih.mp hmem
          refine ⟨x :: w, rfl, ?_⟩
          intro c hc
          rcases List.mem_cons.mp hc with rfl | hc
          · exact hd
          · exact hw c hc
        · simp [hd] at hmem
    · rintro ⟨w, hw, hwd⟩
      cases w with
      | nil => exact Or.inl (by simpa using hw.symm)
      | cons y w =>
        rw [List.cons_append, List.cons.injEq] at hw
        obtain ⟨rfl, rfl⟩ := hw
        have hd : dotMatches x = true := hwd x (by simp)
        refine Or.inr ?_
        rw [if_pos hd]
        exact ih.mpr ⟨w, rfl, fun a ha => hwd a (by simp [ha])⟩

theorem reFullmatch_iff_rem : ∀ (ps : List GElem) (u : List Char),
    reFullmatch ps u = true ↔ REM ps u := by
  intro ps
  induction ps with
  | nil =>
    intro u
    cases u with
    | nil =>
      simp only [reFullmatch, List.isEmpty_nil]
      exact ⟨fun _ => REM.nil, fun _ => trivial⟩

    | cons x xs =>
      simp only [reFullmatch, List.isEmpty_cons]
      exact ⟨fun h => by simp at h, fun h => by cases h⟩
  | cons e ps ih =>
    intro u
    cases e with
    | lit c =>
      cases u with
      | nil =>
        simp only [reFullmatch]
        exact ⟨fun h => by simp at h, fun h => by cases h⟩
      | cons x xs =>
        simp only [reFullmatch, Bool.and_eq_true, beq_iff_eq]
        constructor
        · rintro ⟨rfl, h⟩; exact REM.lit c ((ih xs).mp h)
        · intro h
          cases h with
          | lit _ h => exact ⟨rfl, (ih xs).mpr h⟩
    | star =>
      simp only [reFullmatch, List.any_eq_true]
      constructor
      · rintro ⟨rest, hmem, hmatch⟩
        obtain ⟨w, rfl, hw⟩ := mem_starRests_iff.mp hmem
        exact REM.star w hw ((ih rest).mp hmatch)
      · intro h
        cases h with
        | star w hw h =>
          exact ⟨_, mem_starRests_iff.mpr ⟨w, rfl, hw⟩, (ih _).mpr h⟩

theorem compilePat_cons (c : Char) (p : List Char) :
    compilePat (c :: p) =
      (if c = '*' then GElem.star else GElem.lit c) :: compilePat p := rfl

theorem globSpec_rem {u p : List Char} (h : GlobSpec u p) :
    REM (compilePat p) u := by
  induction h with
  | nil => exact REM.nil
  | lit c hc _ ih =>
    simpa [compilePat, hc] using REM.lit c ih
  | star w hw _ ih =>
    rw [compilePat_cons, if_pos rfl]
    exact REM.star w (fun c hc => by simp [dotMatches, hw c hc]) ih

theorem rem_globSpec : ∀ (p : List Char) (u : List Char),
    REM (compilePat p) u → GlobSpec u p := by
  intro p
  induction p with
  | nil =>
    intro u h
    simp only [compilePat, List.map_nil] at h
    cases h; exact GlobSpec.nil
  | cons c p ih =>
    intro u h
    simp only [compilePat, List.map_cons] at h
    by_cases hc : c = '*'
    · subst hc
      simp only [if_pos rfl] at h
      cases h with
      | star w hw hrest =>
        exact GlobSpec.star w
          (fun x hx => by
            have := hw x hx; simp [dotMatches] at this; exact this)
          (ih _ hrest)
    · simp only [if_neg hc] at h
      cases h with
      | lit _ hrest => exact GlobSpec.lit c hc (ih _ hrest)

/-- Bridge: the compiled-regex matcher accepts exactly the wildcard-semantics
relation with newline-free star runs. -/
theorem reFullmatch_iff_globSpec (u p : List Char) :
    reFullmatch (compilePat p) u = true ↔ GlobSpec u p :=
  ⟨fun h => rem_globSpec p u ((reFullmatch_iff_rem _ _).mp h),
   fun h => (reFullmatch_iff_rem _ _).mpr (globSpec_rem h)⟩

theorem globSpec_refl (u : List Char) : GlobSpec u u := by
  induction u with
  | nil => exact GlobSpec.nil
  | cons c u ih =>
    by_cases hc : c = '*'
    · subst hc
      exact GlobSpec.star ['*'] (by simp) ih
    · exact GlobSpec.lit c hc ih

theorem globSpec_no_star_eq {u p : List Char} (h : GlobSpec u p)
    (hs : '*' ∉ p) : u = p := by
  induction h with
  | nil => rfl
  | lit c hc _ ih =>
    have : '*' ∉ _ := fun hmem => hs (List.mem_cons_of_mem _ hmem)
    rw [ih this]
  | star w _ _ _ => exact absurd (List.mem_cons_self _ _) hs

theorem globSpec_of_eq {u p : List Char} (h : u = p) :
    GlobSpec u p := h ▸ globSpec_refl p

theorem string_beq_iff (u p : String) : (u == p) = true ↔ u.data = p.data := by
  constructor
  · intro h; exact congrArg String.data (eq_of_beq h)
  · intro h
    refine beq_iff_eq.mpr ?_
    cases u; cases p
    exact congrArg String.mk h

/-- Full characterization of `url_matches_pattern`: acceptance coincides with
the wildcard-substitution relation `GlobSpec` (star runs newline-free). -/
theorem url_matches_pattern_iff (u p : String) :
    url_matches_pattern u p = true ↔ GlobSpec u.data p.data := by
  unfold url_matches_pattern
  by_cases hs : p.data.contains '*'
  · rw [if_pos hs]; exact reFullmatch_iff_globSpec _ _
  · rw [if_neg hs]
    have hns : '*' ∉ p.data := by
      intro hmem
      exact hs (List.elem_eq_true_of_mem hmem)
    rw [string_beq_iff]
    exact ⟨fun h => globSpec_of_eq h, fun h => globSpec_no_star_eq h hns⟩

theorem globSpec_append {u1 p u2 q : List Char} (h1 : GlobSpec u1 p)
    (h2 : GlobSpec u2 q) : GlobSpec (u1 ++ u2) (p ++ q) := by
  induction h1 with
  | nil => simpa using h2
  | lit c hc _ ih => exact GlobSpec.lit c hc ih
  | star w hw _ ih =>
    rw [List.append_assoc]
    exact GlobSpec.star w hw ih

theorem globSpec_append_split {p : List Char} :
    ∀ {u q : List Char}, GlobSpec u (p ++ q) →
      ∃ u1 u2, u = u1 ++ u2 ∧ GlobSpec u1 p ∧ GlobSpec u2 q := by
  induction p with
  | nil =>
    intro u q h
    exact ⟨[], u, rfl, GlobSpec.nil, h⟩
  | cons c p ih =>
    intro u q h
    rw [List.cons_append] at h
    cases h with
    | lit _ hc h =>
      obtain ⟨u1, u2, rfl, hu1, hu2⟩ := ih h
      exact ⟨c :: u1, u2, rfl, GlobSpec.lit c hc hu1, hu2⟩
    | star w hw h =>
      obtain ⟨u1, u2, rfl, hu1, hu2⟩ := ih h
      exact ⟨w ++ u1, u2, by rw [List.append_assoc], GlobSpec.star w hw hu1, hu2⟩

theorem globSpec_no_newline {u p : List Char} (h : GlobSpec u p)
    (hp : ∀ c ∈ p, c ≠ '\n') : ∀ c ∈ u, c ≠ '\n' := by
  induction h with
  | nil => simp
  | lit c hc _ ih =>
    intro a ha
    rcases List.mem_cons.mp ha with rfl | ha
    · exact hp a (List.mem_cons_self _ _)
    · exact ih (fun x hx => hp x (List.mem_cons_of_mem _ hx)) a ha
  | star w hw _ ih =>
    intro a ha
    rcases List.mem_append.mp ha with ha | ha
    · exact hw a ha
    · exact ih (fun x hx => hp x (List.mem_cons_of_mem _ hx)) a ha

/-- Subsumption is transitive through a concrete middle string: if text `b`
matches pattern `a` and text `c` matches pattern `b` (read as a pattern),
then `c` matches `a`. -/
theorem globSpec_trans {a : List Char} :
    ∀ {b c : List Char}, GlobSpec b a → GlobSpec c b → GlobSpec c a := by
  intro b c h1
  induction h1 generalizing c with
  | nil =>
    intro h2
    cases h2
    exact GlobSpec.nil
  | lit ch hc _ ih =>
    intro h2
    cases h2 with
    | lit _ _ h => exact GlobSpec.lit ch hc (ih h)
    | star _ _ _ => exact absurd rfl hc
  | star w hw h ih =>
    intro h2
    obtain ⟨c1, c2, rfl, hc1, hc2⟩ := globSpec_append_split h2
    exact GlobSpec.star c1 (globSpec_no_newline hc1 hw) (ih hc2)

theorem url_matches_pattern_trans {a b c : String}
    (h1 : url_matches_pattern b a = true)
    (h2 : url_matches_pattern c b = true) :
    url_matches_pattern c a = true :=
  (url_matches_pattern_iff c a).mpr
    (globSpec_trans ((url_matches_pattern_iff b a).mp h1)
      ((url_matches_pattern_iff c b).mp h2))

/-- Claim C3 counterexample: the engine's matcher uses Python `.*`, which does
not cross a newline, so a url whose star run would contain a newline is
rejected even though the claim's substitution semantics accepts it. -/
theorem claim_C3_counterexample :
    url_matches_pattern ("a\nb") ("a*b") = false ∧
    GlobSpecAny (String.data ("a\nb")) (String.data ("a*b")) := by
  constructor
  · decide
  · show GlobSpecAny ['a', '\n', 'b'] ['a', '*', 'b']
    have h : (['a', '\n', 'b'] : List Char) = 'a' :: (['\n'] ++ ['b']) := rfl
    rw [h]
    exact GlobSpecAny.lit 'a' (by decide)
      (GlobSpecAny.star ['\n'] (GlobSpecAny.lit 'b' (by decide) GlobSpecAny.nil))

/-- Claim C3 (amended): `url_matches_pattern u p` is true iff `u` equals `p`
with each `*` of `p` replaced by some possibly-empty run of non-newline
characters, all other characters of `p` (including regex metacharacters)
compared literally and case-sensitively; when `p` contains no `*` the result
is exactly string equality. -/
theorem claim_C3_amended (u p : String) :
    (url_matches_pattern u p = true ↔ GlobSpec u.data p.data) ∧
    ('*' ∉ p.data → (url_matches_pattern u p = true ↔ u = p)) := by
  refine ⟨url_matches_pattern_iff u p, fun hns => ?_⟩
  unfold url_matches_pattern
  rw [if_neg (by intro hc; exact hns (by simpa using hc))]
  exact ⟨fun h => eq_of_beq h, fun h => beq_iff_eq.mpr h⟩

theorem claim_C3_amended_witness :
    '*' ∉ String.data ("ab") ∧
      (url_matches_pattern ("ab") ("ab") = true ↔ ("ab" : String) = ("ab")) :=
  ⟨by decide, (claim_C3_amended ("ab") ("ab")).2 (by decide)⟩

/-! ## String helpers (Python `str` operations used by the engine) -/

/-- Python `str.replace(old, new)` on character lists: scan left to right,
replacing non-overlapping occurrences of `old`.  `skip` counts characters
of an accepted occurrence still to be consumed silently.  The engine never
calls `replace` with an empty needle; for `old = []` the string is
returned unchanged. -/
def rcGo (old new : List Char) : List Char → Nat → List Char
  | [], _ => []
  | _ :: xs, skip + 1 => rcGo old new xs skip
  | x :: xs, 0 =>
    if old ≠ [] ∧ old.isPrefixOf (x :: xs) then
      new ++ rcGo old new xs (old.length - 1)
    else x :: rcGo old new xs 0

def replaceChars (old new s : List Char) : List Char := rcGo old new s 0

/-- Python `s.replace(old, new)` on strings. -/
def strReplace (s old new : String) : String := ⟨replaceChars old.data new.data s.data⟩

/-- Python `sub in s` (substring containment) on character lists. -/
def containsSubstr (sub : List Char) : List Char → Bool
  | [] => sub.isEmpty
  | x :: xs => sub.isPrefixOf (x :: xs) || containsSubstr sub xs

/-- Python `sub in s` on strings. -/
def strContainsSubstr (s sub : String) : Bool := containsSubstr sub.data s.data

/-- Python `s.split('/')` (single-character separator split). -/
def splitOnCharAux (sep : Char) : List Char → List Char → List String
  | [], acc => [String.mk acc.reverse]
  | c :: cs, acc =>
    if c = sep then String.mk acc.reverse :: splitOnCharAux sep cs []
    else splitOnCharAux sep cs (c :: acc)

def splitSlash (s : String) : List String := splitOnCharAux '/' s.data []

/-- Lexicographic comparison of code points: Python `str` ordering. -/
def charListLe : List Char → List Char → Bool
  | [], _ => true
  | _ :: _, [] => false
  | x :: xs, y :: ys =>
    if x < y then true else if x = y then charListLe xs ys else false

def strLe (a b : String) : Bool := charListLe a.data b.data

/-- Insertion sort.  All the engine's sorts compare whole values (Python
sorts lists of plain tuples/ints/strings), so any sorting algorithm yields
the same list; insertion sort keeps every definition kernel-computable. -/
def insertSorted {α : Type} (le : α → α → Bool) (x : α) : List α → List α
  | [] => [x]
  | y :: ys => if le x y then x :: y :: ys else y :: insertSorted le x ys

def sortBy {α : Type} (le : α → α → Bool) : List α → List α
  | [] => []
  | x :: xs => insertSorted le x (sortBy le xs)

/-! ## Association lists (Python `dict` with insertion order) -/

/-- First value bound to a key. -/
def alGet {v : Type} : List (String × v) → String → Option v
  | [], _ => none
  | (k', x) :: m, k => if k' = k then some x else alGet m k

/-- Python `k in d`. -/
def alHas {v : Type} (m : List (String × v)) (k : String) : Bool :=
  (alGet m k).isSome

/-- Python `d[k] = x`: update in place if the key exists, otherwise append
(newly inserted keys go to the end of the iteration order). -/
def alSet {v : Type} : List (String × v) → String → v → List (String × v)
  | [], k, x => [(k, x)]
  | (k', y) :: m, k, x =>
    if k' = k then (k', x) :: m else (k', y) :: alSet m k x

/-- Python `del d[k]`: remove the (unique) binding of the key. -/
def alErase {v : Type} : List (String × v) → String → List (String × v)
  | [], _ => []
  | (k', x) :: m, k => if k' = k then m else (k', x) :: alErase m k

/-- Python `list(d.keys())`. -/
def alKeys {v : Type} (m : List (String × v)) : List String := m.map Prod.fst

/-! ## Data model: origin → path → date → content hash → occurrence stats -/

/-- Per (path, month, content-hash) statistics accumulated by `load_date`. -/
structure HashStat where
  count : Nat
  size : Nat
deriving DecidableEq, Repr

/-- One month's content hashes of a path. -/
abbrev HashTab := List (String × HashStat)

/-- A path's tracked months. -/
abbrev PathHist := List (String × HashTab)

/-- An origin's working set of paths. -/
abbrev OriginMap := List (String × PathHist)

/-- The full origin index (`Collect.origins`). -/
abbrev Index := List (String × OriginMap)

/-- `Collect.destinations`: url → destination type of its first record. -/
abbrev Dests := List (String × String)

instance : DecidableEq HashTab :=
  inferInstanceAs (DecidableEq (List (String × HashStat)))

instance : DecidableEq PathHist :=
  inferInstanceAs (DecidableEq (List (String × HashTab)))

instance : DecidableEq OriginMap :=
  inferInstanceAs (DecidableEq (List (String × PathHist)))

instance : DecidableEq Index :=
  inferInstanceAs (DecidableEq (List (String × OriginMap)))

/-! ## Engine constants (pervasive.py lines 17-27) -/

def PERVASIVE_COUNT : Nat := 100000
def MAX_URL_LENGTH : Nat := 200
def SIZE_MATCH_PERCENT : Nat := 5
def MIN_STABLE_PATH : Nat := 2
/-- `MIN_FILENAME_RATIO = 0.5`. -/
def minFilenameRatio : ℚ := 1 / 2
def MAX_FILENAME_MATCHING_BLOCKS : Nat := 3
def MAX_FILENAME_LENGTH_DIFFERENCE : Nat := 2
def BLOCKLIST : List String := ["chunk"]
def WILDCARD_REPLACE : List String := ["en_US"]
def FILENAME_IGNORE : List String := [".js", ".css", "bundle", ".min", ".", "-", "[", "]"]

/-! ## URL parsing (`urllib.parse.urlparse`, as used by `load_date`)

`load_date` derives `origin = "{scheme}://{netloc}"` and `path` from each
record's url.  We model `urlparse` for the URL shapes the engine consumes:
an optional scheme (alpha followed by alphanumeric/`+`/`-`/`.`, terminated
by `:`, lowercased), an optional `//netloc` delimited by `/`, `?` or `#`,
and a path cut at the first `?` or `#` with any `;params` suffix of the
final segment removed. -/

def isSchemeChar (c : Char) : Bool := c.isAlphanum || c = '+' || c = '-' || c = '.'

def findScheme (s : List Char) : Option (List Char × List Char) :=
  match s.dropWhile isSchemeChar, s.takeWhile isSchemeChar with
  | ':' :: r, c :: pre => if c.isAlpha then some (c :: pre, r) else none
  | _, _ => none

def netlocSplit : List Char → List Char × List Char
  | '/' :: '/' :: r =>
    let nl := r.takeWhile fun c => c != '/' && c != '?' && c != '#'
    (nl, r.drop nl.length)
  | s => ([], s)

/-- Remove the `;params` suffix of the final path segment, as `urlparse`
does before exposing `.path`. -/
def dropPathParams (p : List Char) : List Char :=
  let seg := (p.reverse.takeWhile (· != '/')).reverse
  let pre := p.take (p.length - seg.length)
  pre ++ seg.takeWhile (· != ';')

def urlparseOriginPath (url : String) : String × String :=
  let s := url.data
  let sr :=  match findScheme s with
    | some (pre, r) => (pre.map Char.toLower, r)
    | none => (([] : List Char), s)
  let nr := netlocSplit sr.2
  let path := dropPathParams (nr.2.takeWhile fun c => c != '?' && c != '#')
  (⟨sr.1⟩ ++ "://" ++ ⟨nr.1⟩, ⟨path⟩)

/-! ## Ingestion (`Collect.load_date`) -/

/-- One decoded JSON record of a monthly results file.  A field is `none`
when the corresponding key is missing; accessing a missing key raises
`KeyError` in Python, which we model with `Except` (the error value names
the missing key). -/
structure RawEntry where
  url : Option String
  body_hash : Option String
  dest : Option String
  size : Option Nat
  num : Option Nat
deriving DecidableEq, Repr

/-- The mutable state that `load_date` updates. -/
structure LoadState where
  origins : Index
  destinations : Dests
deriving DecidableEq, Repr

/-- Python `entry[k]`: the value, or `KeyError` when the key is missing. -/
def getField {a : Type} (f : Option a) (k : String) : Except String a :=
  match f with
  | some x => Except.ok x
  | none => Except.error k

/-- Body of the `for entry in raw` loop of `Collect.load_date`
(pervasive.py lines 171-191). -/
def loadEntry (currentDate d : String) (st : LoadState) (e : RawEntry) :
    Except String LoadState := do
  let url ← getField e.url ("url")
  let hash ← getField e.body_hash ("body_hash")
  let num ← getField e.num ("num")
  let op := urlparseOriginPath url
  let origin_str := op.1
  let path := op.2
  -- Only consider new origins if they are from the latest crawl
  let origins0 :=
    if !(alHas st.origins origin_str) && (d == currentDate) then
      alSet st.origins origin_str []
    else st.origins
  if alHas origins0 origin_str = false then
    return { st with origins := origins0 }
  let omap0 := (alGet origins0 origin_str).getD []
  let isNewPath := !(alHas omap0 path)
  let dests ← (if isNewPath then do
      let dest ← getField e.dest ("dest")
      pure (alSet st.destinations url dest)
    else pure st.destinations)
  let omap1 := if isNewPath then alSet omap0 path [] else omap0
  let hist0 := (alGet omap1 path).getD []
  let htab0 := (alGet hist0 d).getD []
  let htab1 ← (if alHas htab0 hash then pure htab0
    else do
      let size ← getField e.size ("size")
      pure (alSet htab0 hash { count := 0, size := size }))
  let stat := (alGet htab1 hash).getD { count := 0, size := 0 }
  let htab2 := alSet htab1 hash { stat with count := stat.count + num }
  let hist1 := alSet hist0 d htab2
  let omap2 := alSet omap1 path hist1
  return { origins := alSet origins0 origin_str omap2, destinations := dests }

/-- `Collect.load_date` (pervasive.py lines 166-191) on one month's decoded
records. -/
def load_date (currentDate d : String) (entries : List RawEntry)
    (st : LoadState) : Except String LoadState :=
  entries.foldlM (fun st e => loadEntry currentDate d st e) st

instance exceptDecEq {e a : Type} [DecidableEq e] [DecidableEq a] :
    DecidableEq (Except e a)
  | Except.ok x, Except.ok y =>
    if h : x = y then isTrue (by rw [h])
    else isFalse (by intro hh; cases hh; exact h rfl)
  | Except.ok _, Except.error _ => isFalse (by intro h; cases h)
  | Except.error _, Except.ok _ => isFalse (by intro h; cases h)
  | Except.error x, Except.error y =>
    if h : x = y then isTrue (by rw [h])
    else isFalse (by intro hh; cases hh; exact h rfl)

/-- True when an `Except` computation succeeded. -/
def exceptOk {e a : Type} : Except e a → Bool
  | Except.ok _ => true
  | Except.error _ => false

theorem exceptBind_error {e a b : Type} (msg : e) (k : a → Except e b) :
    (Except.error msg >>= k) = Except.error msg := rfl

theorem exceptBind_ok {e a b : Type} (x : a) (k : a → Except e b) :
    (Except.ok x >>= k) = k x := rfl

theorem loadEntry_error_of_malformed (currentDate d : String) (st : LoadState)
    (e : RawEntry) (h : e.url = none ∨ e.body_hash = none ∨ e.num = none) :
    ∃ msg, loadEntry currentDate d st e = Except.error msg := by
  rcases h with h | h | h
  · exact ⟨"url", by simp [loadEntry, getField, h, exceptBind_error]⟩
  · cases hu : e.url with
    | none => exact ⟨"url", by simp [loadEntry, getField, hu, exceptBind_error]⟩
    | some u =>
      exact ⟨"body_hash",
        by simp [loadEntry, getField, hu, h, exceptBind_ok, exceptBind_error]⟩
  · cases hu : e.url with
    | none => exact ⟨"url", by simp [loadEntry, getField, hu, exceptBind_error]⟩
    | some u =>
      cases hh : e.body_hash with
      | none =>
        exact ⟨"body_hash",
          by simp [loadEntry, getField, hu, hh, exceptBind_ok, exceptBind_error]⟩
      | some hsh =>
        exact ⟨"num",
          by simp [loadEntry, getField, hu, hh, h, exceptBind_ok, exceptBind_error]⟩

/-- Claim C5 (amended): a record missing its url, content-hash or count field
makes `load_date` raise an uncaught `KeyError`, aborting the whole month's
ingestion; the record is not skipped and the run fails. -/
theorem claim_C5_amended (currentDate d : String) (entries : List RawEntry)
    (h : ∃ e ∈ entries, e.url = none ∨ e.body_hash = none ∨ e.num = none) :
    ∀ st : LoadState, exceptOk (load_date currentDate d entries st) = false := by
  induction entries with
  | nil => simp at h
  | cons e es ih =>
    intro st
    obtain ⟨e', he', hbad⟩ := h
    rcases List.mem_cons.mp he' with rfl | he'
    · obtain ⟨msg, herr⟩ := loadEntry_error_of_malformed currentDate d st e' hbad
      simp [load_date, List.foldlM_cons, herr, exceptBind_error, exceptOk]
    · cases hres : loadEntry currentDate d st e with
      | error msg =>
        simp [load_date, List.foldlM_cons, hres, exceptBind_error, exceptOk]
      | ok st' =>
        have := ih ⟨e', he', hbad⟩ st'
        simpa [load_date, List.foldlM_cons, hres, exceptBind_ok] using this

def demoEntryA : RawEntry :=
  { url := some ("https://o.example/lib/app.js"), body_hash := some ("h1"),
    dest := some ("script"), size := some 1200, num := some 50000 }

/-- A malformed record: the content-hash field is missing. -/
def demoEntryBad : RawEntry :=
  { url := some ("https://o.example/lib/other.js"), body_hash := none,
    dest := some ("script"), size := some 1300, num := some 60000 }

def demoEntryC : RawEntry :=
  { url := some ("https://o.example/lib/third.js"), body_hash := some ("h3"),
    dest := some ("script"), size := some 1250, num := some 70000 }

theorem claim_C5_amended_witness :
    exceptOk (load_date ("2025-10") ("2025-10") [demoEntryBad]
      { origins := [], destinations := [] }) = false :=
  claim_C5_amended ("2025-10") ("2025-10") [demoEntryBad]
    ⟨demoEntryBad, by simp, Or.inr (Or.inl rfl)⟩
    { origins := [], destinations := [] }

/-- Claim C5 counterexample: with a malformed record between two well-formed
ones, ingestion of the month fails (uncaught KeyError) instead of skipping
the single record; without the malformed record the same ingestion
succeeds.  The run does fail because of a malformed record. -/
theorem claim_C5_counterexample :
    exceptOk (load_date ("2025-10") ("2025-10")
      [demoEntryA, demoEntryBad, demoEntryC] ⟨[], []⟩) = false ∧
    exceptOk (load_date ("2025-10") ("2025-10")
      [demoEntryA, demoEntryC] ⟨[], []⟩) = true := by
  constructor
  · decide
  · decide

/-! ## Stage 1: `Collect.find_pervasive_urls` (pervasive.py lines 193-214) -/

/-- Sum of occurrence counts over one month's content hashes of a path
(lines 200-205): zero when the month is absent. -/
def monthTotal (hist : PathHist) (d : String) : Nat :=
  match alGet hist d with
  | some htab => (htab.map (fun kv => kv.2.count)).sum
  | none => 0

/-- The month loop of lines 200-208: every tracked month must reach
`PERVASIVE_COUNT`; the first month below it stops the loop early. -/
def pervasiveCheck (hist : PathHist) : List String → Bool
  | [] => true
  | d :: ds =>
    if monthTotal hist d < PERVASIVE_COUNT then false
    else pervasiveCheck hist ds

/-- Body of the path loop of `find_pervasive_urls` (lines 196-214). -/
def pervasiveStep (dates : List String) (origin : String)
    (acc : OriginMap × List String) (path : String) : OriginMap × List String :=
  match alGet acc.1 path with
  | none => acc
  | some hist =>
    if hist.length = dates.length then
      if pervasiveCheck hist dates then
        let url := origin ++ path
        (alErase acc.1 path, if acc.2.contains url then acc.2 else acc.2 ++ [url])
      else acc
    else acc

/-- `find_pervasive_urls` restricted to one origin: iterate over a snapshot
of the path keys, deleting classified paths. -/
def find_pervasive_origin (dates : List String) (origin : String)
    (o : OriginMap) (pats : List String) : OriginMap × List String :=
  (alKeys o).foldl (pervasiveStep dates origin) (o, pats)

/-- `Collect.find_pervasive_urls` (lines 193-214). -/
def find_pervasive_urls (dates : List String) (idx : Index)
    (pats : List String) : Index × List String :=
  (alKeys idx).foldl
    (fun acc origin =>
      match alGet acc.1 origin with
      | none => acc
      | some o =>
        let r := find_pervasive_origin dates origin o acc.2
        (alSet acc.1 origin r.1, r.2))
    (idx, pats)

/-! ## Stages 2-5: exclusion filters (lines 216-262) -/

/-- The final `/`-separated component of a path (Python `path.split('/')[-1]`). -/
def lastSegment (s : String) : String := (splitSlash s).getLastD ("")

/-- `Collect.remove_long_urls` (lines 256-262). -/
def remove_long_origin (origin : String) (o : OriginMap) : OriginMap :=
  (alKeys o).foldl
    (fun o path =>
      if (origin ++ path).length > MAX_URL_LENGTH then alErase o path else o) o

def remove_long_urls (idx : Index) : Index :=
  (alKeys idx).foldl
    (fun idx origin =>
      match alGet idx origin with
      | none => idx
      | some o => alSet idx origin (remove_long_origin origin o)) idx

/-- Distinct content hashes across a path's whole history, in
first-appearance order (lines 225-229 and 238-242). -/
def distinctHashes (hist : PathHist) : List String :=
  hist.foldl
    (fun acc dht =>
      dht.2.foldl (fun acc kv => if acc.contains kv.1 then acc else acc ++ [kv.1]) acc)
    []

/-- `Collect.remove_static_urls` (lines 216-232): drop paths that are present
in every tracked month with a single distinct hash. -/
def remove_static_origin (dates : List String) (o : OriginMap) : OriginMap :=
  (alKeys o).foldl
    (fun o path =>
      match alGet o path with
      | none => o
      | some hist =>
        if hist.length = dates.length ∧ (distinctHashes hist).length = 1 then
          alErase o path
        else o) o

def remove_static_urls (dates : List String) (idx : Index) : Index :=
  (alKeys idx).foldl
    (fun idx origin =>
      match alGet idx origin with
      | none => idx
      | some o => alSet idx origin (remove_static_origin dates o)) idx

/-- `Collect.remove_unversioned_urls` (lines 234-245): drop paths with more
than one distinct hash. -/
def remove_unversioned_origin (o : OriginMap) : OriginMap :=
  (alKeys o).foldl
    (fun o path =>
      match alGet o path with
      | none => o
      | some hist =>
        if (distinctHashes hist).length > 1 then alErase o path else o) o

def remove_unversioned_urls (idx : Index) : Index :=
  (alKeys idx).foldl
    (fun idx origin =>
      match alGet idx origin with
      | none => idx
      | some o => alSet idx origin (remove_unversioned_origin o)) idx

/-- `Collect.is_blocked` (lines 384-390). -/
def is_blocked (path : String) : Bool :=
  let file := lastSegment path
  BLOCKLIST.any fun b => strContainsSubstr file b

/-- `Collect.remove_blocked_urls` (lines 247-254). -/
def remove_blocked_origin (o : OriginMap) : OriginMap :=
  (alKeys o).foldl
    (fun o path =>
      if is_blocked (lastSegment path) then alErase o path else o) o

def remove_blocked_urls (idx : Index) : Index :=
  (alKeys idx).foldl
    (fun idx origin =>
      match alGet idx origin with
      | none => idx
      | some o => alSet idx origin (remove_blocked_origin o)) idx

/-! ## `difflib.SequenceMatcher` (standard library), no-junk case

The engine calls `SequenceMatcher(None, a, b)` on filename fragments.  Both
strings are shorter than 200 characters (paths longer than
`MAX_URL_LENGTH = 200` were removed first), so the autojunk popularity
heuristic (which requires the second sequence to have length >= 200) never
marks any element as junk, and the junk set is empty.  With an empty junk
set, `find_longest_match` is exactly its dynamic program: the four
extension loops cannot fire, because they would extend a matching run past
the maximal size the dynamic program already found. -/

/-- A matching block `(a, b, size)`. -/
structure MBlock where
  a : Nat
  b : Nat
  size : Nat
deriving DecidableEq, Repr

/-- `b2j`: the ascending list of positions of a character in `b`. -/
def b2j (b : List Char) (c : Char) : List Nat :=
  ((b.enum.filter fun p => p.2 = c).map Prod.fst)

/-- Inner loop of `find_longest_match`: walk the positions of `a[i]` in `b`,
skipping those below `blo` and stopping at the first at or above `bhi`
(the positions are ascending), extending runs recorded in `j2len`. -/
def flmInner (j2len : Nat → Nat) (i blo bhi : Nat) :
    List Nat → (Nat → Nat) → MBlock → ((Nat → Nat) × MBlock)
  | [], newj2len, best => (newj2len, best)
  | j :: js, newj2len, best =>
    if j < blo then flmInner j2len i blo bhi js newj2len best
    else if j ≥ bhi then (newj2len, best)
    else
      let k := (if j = 0 then 0 else j2len (j - 1)) + 1
      let newj2len' := fun x => if x = j then k else newj2len x
      -- Python computes `i - k + 1` over ℤ; `k ≤ i + 1` always holds, so
      -- `i + 1 - k` is the same value and stays correct over ℕ.
      let best' := if k > best.size then MBlock.mk (i + 1 - k) (j + 1 - k) k else best
      flmInner j2len i blo bhi js newj2len' best'

/-- Outer loop of `find_longest_match` over the rows `alo..ahi-1`. -/
def flmOuter (a : List Char) (bj : Char → List Nat) (blo bhi : Nat) :
    List Nat → (Nat → Nat) → MBlock → MBlock
  | [], _, best => best
  | i :: is, j2len, best =>
    let r := flmInner j2len i blo bhi (bj (a.getD i ' ')) (fun _ => 0) best
    flmOuter a bj blo bhi is r.1 r.2

/-- `SequenceMatcher.find_longest_match` on `a[alo:ahi]` x `b[blo:bhi]`,
no junk: the dynamic program with its first-encountered tie-breaking. -/
def find_longest_match (a b : List Char) (alo ahi blo bhi : Nat) : MBlock :=
  flmOuter a (b2j b) blo bhi (List.range' alo (ahi - alo)) (fun _ => 0)
    (MBlock.mk alo blo 0)

/-- Result bounds of the dynamic program: a nonzero best match lies inside
`[alo, ahi)`. -/
def MBounds (alo ahi : Nat) (m : MBlock) : Prop :=
  m.size = 0 ∨ (1 ≤ m.size ∧ alo ≤ m.a ∧ m.a + m.size ≤ ahi)

theorem flmInner_bounds {alo ahi blo bhi i D : Nat} {j2len : Nat → Nat}
    (hj : ∀ x, j2len x ≤ D) (hD : D = i - alo) (hia : alo ≤ i) (hib : i < ahi) :
    ∀ (js : List Nat) (newj2len : Nat → Nat) (best : MBlock),
      (∀ x, newj2len x ≤ D + 1) → MBounds alo ahi best →
      (∀ x, (flmInner j2len i blo bhi js newj2len best).1 x ≤ D + 1) ∧
        MBounds alo ahi (flmInner j2len i blo bhi js newj2len best).2 := by
  intro js
  induction js with
  | nil =>
    intro newj2len best hn hb
    exact ⟨hn, hb⟩
  | cons j js ih =>
    intro newj2len best hn hb
    by_cases h1 : j < blo
    · simp only [flmInner, if_pos h1]
      exact ih newj2len best hn hb
    · by_cases h2 : j ≥ bhi
      · simp only [flmInner, if_neg h1, if_pos h2]
        exact ⟨hn, hb⟩
      · simp only [flmInner, if_neg h1, if_neg h2]
        set k := (if j = 0 then 0 else j2len (j - 1)) + 1 with hk
        have hkb : k ≤ D + 1 := by
          rw [hk]
          by_cases hj0 : j = 0
          · simp [hj0]
          · simp only [if_neg hj0]
            exact Nat.succ_le_succ (hj (j - 1))
        refine ih _ _ ?_ ?_
        · intro x
          by_cases hx : x = j
          · simp [hx, hkb]
          · simp only [if_neg hx]
            exact hn x
        · have hk1 : 1 ≤ k := by rw [hk]; exact Nat.le_add_left 1 _
          by_cases hbig : k > best.size
          · simp only [if_pos hbig]
            refine Or.inr ⟨?_, ?_, ?_⟩
            · show 1 ≤ k
              exact hk1
            · show alo ≤ i + 1 - k
              omega
            · show (i + 1 - k) + k ≤ ahi
              omega
          · simp only [if_neg hbig]
            exact hb

theorem flmOuter_bounds {a : List Char} {bj : Char → List Nat}
    {alo ahi blo bhi : Nat} :
    ∀ (m i : Nat) (j2len : Nat → Nat) (best : MBlock),
      alo ≤ i → i + m ≤ ahi → (∀ x, j2len x ≤ i - alo) → MBounds alo ahi best →
      MBounds alo ahi
        (flmOuter a bj blo bhi (List.range' i m) j2len best) := by
  intro m
  induction m with
  | zero =>
    intro i j2len best _ _ _ hb
    simpa [flmOuter] using hb
  | succ m ih =>
    intro i j2len best hia him hj hb
    rw [List.range'_succ]
    simp only [flmOuter]
    have hib : i < ahi := by omega
    have h := @flmInner_bounds alo ahi blo bhi i (i - alo) j2len hj rfl hia hib
      (bj (a.getD i ' ')) (fun _ => 0) best (fun x => by simp) hb
    refine ih (i + 1) _ _ (by omega) (by omega) ?_ h.2
    intro x
    have := h.1 x
    omega

/-- The dynamic program's answer is either empty or a block inside
`[alo, ahi)`. -/
theorem find_longest_match_bounds (a b : List Char) (alo ahi blo bhi : Nat) :
    MBounds alo ahi (find_longest_match a b alo ahi blo bhi) := by
  unfold find_longest_match
  by_cases h : alo ≤ ahi
  · exact flmOuter_bounds (ahi - alo) alo _ _ (Nat.le_refl alo) (by omega)
      (fun x => by simp) (Or.inl rfl)
  · have : ahi - alo = 0 := by omega
    rw [this]
    simp only [List.range', flmOuter]
    exact Or.inl rfl

/-- The recursion tree of `get_matching_blocks`: find the longest match of
the rectangle, then recurse on the sub-rectangles strictly to the
upper-left and lower-right of it.  The source drives the same tree with an
explicit LIFO queue; the traversal order does not matter because the
collected blocks are sorted afterwards.  The fuel argument only bounds the
recursion depth; `ahi - alo` is always enough (`gmbRecF_adequate`). -/
def gmbRecF (a b : List Char) : Nat → Nat → Nat → Nat → Nat → List MBlock
  | 0, _, _, _, _ => []
  | fuel + 1, alo, ahi, blo, bhi =>
    let m := find_longest_match a b alo ahi blo bhi
    if m.size = 0 then []
    else
      (if alo < m.a ∧ blo < m.b then gmbRecF a b fuel alo m.a blo m.b else []) ++
        ([m] ++
          (if m.a + m.size < ahi ∧ m.b + m.size < bhi then
            gmbRecF a b fuel (m.a + m.size) ahi (m.b + m.size) bhi
          else []))

def gmbRec (a b : List Char) (alo ahi blo bhi : Nat) : List MBlock :=
  gmbRecF a b (ahi - alo) alo ahi blo bhi

theorem gmbRecF_adequate (a b : List Char) :
    ∀ (f1 f2 alo ahi blo bhi : Nat), ahi - alo ≤ f1 → ahi - alo ≤ f2 →
      gmbRecF a b f1 alo ahi blo bhi = gmbRecF a b f2 alo ahi blo bhi := by
  intro f1
  induction f1 with
  | zero =>
    intro f2 alo ahi blo bhi h1 h2
    have hsz : (find_longest_match a b alo ahi blo bhi).size = 0 := by
      rcases find_longest_match_bounds a b alo ahi blo bhi with h | h
      · exact h
      · omega
    cases f2 with
    | zero => rfl
    | succ f2 => simp [gmbRecF, hsz]
  | succ f1 ih =>
    intro f2 alo ahi blo bhi h1 h2
    rcases find_longest_match_bounds a b alo ahi blo bhi with hsz | hb
    · cases f2 with
      | zero => simp [gmbRecF, hsz]
      | succ f2 => simp [gmbRecF, hsz]
    · cases f2 with
      | zero => omega
      | succ f2 =>
        have hsz : ¬ (find_longest_match a b alo ahi blo bhi).size = 0 := by omega
        simp only [gmbRecF, if_neg hsz]
        have hleft := ih f2 alo (find_longest_match a b alo ahi blo bhi).a blo
          (find_longest_match a b alo ahi blo bhi).b (by omega) (by omega)
        have hright := ih f2 ((find_longest_match a b alo ahi blo bhi).a +
            (find_longest_match a b alo ahi blo bhi).size) ahi
          ((find_longest_match a b alo ahi blo bhi).b +
            (find_longest_match a b alo ahi blo bhi).size) bhi (by omega) (by omega)
        rw [hleft, hright]

/-- Python tuple comparison on `(a, b, size)`, as used by
`matching_blocks.sort()`. -/
def mblockLe (x y : MBlock) : Bool :=
  decide (x.a < y.a ∨ (x.a = y.a ∧ (x.b < y.b ∨ (x.b = y.b ∧ x.size ≤ y.size))))

/-- One step of the adjacent-block collapse of `get_matching_blocks`. -/
def collapseStep (st : MBlock × List MBlock) (x : MBlock) : MBlock × List MBlock :=
  if st.1.a + st.1.size = x.a ∧ st.1.b + st.1.size = x.b then
    (MBlock.mk st.1.a st.1.b (st.1.size + x.size), st.2)
  else
    (x, if st.1.size ≠ 0 then st.2 ++ [st.1] else st.2)

/-- The adjacent-block collapse loop of `get_matching_blocks`. -/
def collapseAdjacent (blocks : List MBlock) : List MBlock :=
  let r := blocks.foldl collapseStep (MBlock.mk 0 0 0, [])
  if r.1.size ≠ 0 then r.2 ++ [r.1] else r.2

/-- `SequenceMatcher.get_matching_blocks` (no junk): collect the maximal
matches, sort them, collapse adjacent ones, and append the terminating
dummy block `(len(a), len(b), 0)`. -/
def get_matching_blocks (a b : List Char) : List MBlock :=
  collapseAdjacent (sortBy mblockLe (gmbRec a b 0 a.length 0 b.length)) ++
    [MBlock.mk a.length b.length 0]

/-- `SequenceMatcher.ratio()` as an exact rational: `2*M/T`, or `1` when
both sequences are empty. -/
def sm_ratio (a b : List Char) : ℚ :=
  let m : Nat := ((get_matching_blocks a b).map fun x => x.size).sum
  let t : Nat := a.length + b.length
  if t = 0 then 1 else 2 * (m : ℚ) / (t : ℚ)

/-- The comparison `s.ratio() >= MIN_FILENAME_RATIO` of line 427 in exact
integer arithmetic (`2M/T >= 1/2`, ratio `1.0` when `T = 0`); it agrees
with the float comparison, whose operands here are exactly representable
(`ratioGeHalf_iff`). -/
def ratioGeHalf (a b : List Char) : Bool :=
  let m : Nat := ((get_matching_blocks a b).map fun x => x.size).sum
  let t : Nat := a.length + b.length
  decide (t = 0) || decide (t ≤ 4 * m)

theorem ratioGeHalf_iff (a b : List Char) :
    ratioGeHalf a b = true ↔ sm_ratio a b ≥ minFilenameRatio := by
  unfold ratioGeHalf sm_ratio minFilenameRatio
  set m : Nat := ((get_matching_blocks a b).map fun x => x.size).sum with hm
  set t : Nat := a.length + b.length with ht
  by_cases h0 : t = 0
  · simp only [h0, if_pos rfl]
    norm_num
  · have hpos : (0 : ℚ) < (t : ℚ) := by
      have : 0 < t := Nat.pos_of_ne_zero h0
      exact_mod_cast this
    have hbool : (decide (t = 0) || decide (t ≤ 4 * m)) = true ↔ t ≤ 4 * m := by
      simp [h0]
    rw [hbool, if_neg h0, ge_iff_le,
      div_le_div_iff (show (0 : ℚ) < 2 by norm_num) hpos]
    constructor
    · intro hle
      have : (t : ℚ) ≤ 4 * (m : ℚ) := by exact_mod_cast hle
      linarith
    · intro hle
      have : (t : ℚ) ≤ 4 * (m : ℚ) := by linarith
      exact_mod_cast this

/-! ## Pattern synthesis (`create_filename_pattern`, `find_path_pattern`) -/

/-- State of the candidate loop of `create_filename_pattern`
(pervasive.py lines 273-312): the accumulated span intersection and the
minimum/maximum covered positions in the seed filename. -/
structure CFPState where
  common : Option (List (Nat × Nat))
  first : Option Nat
  last : Option Nat
deriving DecidableEq, Repr

/-- Spans of the positive-size matching blocks, with running min start and
max end (the `common == None` branch, lines 282-292). -/
def spansOfMatches (mbs : List MBlock) :
    List (Nat × Nat) × Option Nat × Option Nat :=
  mbs.foldl
    (fun acc m =>
      if m.size > 0 then
        let e := m.a + m.size
        let first := match acc.2.1 with
          | none => some m.a
          | some f => if m.a < f then some m.a else some f
        let last := match acc.2.2 with
          | none => some e
          | some l => if e > l then some e else some l
        (acc.1 ++ [(m.a, e)], first, last)
      else acc)
    ([], none, none)

/-- Intersection of the new matching blocks with the accumulated spans
(the `else` branch, lines 294-312). -/
def intersectSpans (mbs : List MBlock) (common : List (Nat × Nat)) :
    List (Nat × Nat) × Option Nat × Option Nat :=
  mbs.foldl
    (fun acc m =>
      if m.size > 0 then
        let e0 := m.a + m.size
        common.foldl
          (fun acc c =>
            let s := max m.a c.1
            let e := min e0 c.2
            if s < e then
              let first := match acc.2.1 with
                | none => some s
                | some f => if s < f then some s else some f
              let last := match acc.2.2 with
                | none => some e
                | some l => if e > l then some e else some l
              (acc.1 ++ [(s, e)], first, last)
            else acc)
          acc
      else acc)
    ([], none, none)

/-- One candidate of the `for p in candidates` loop of
`create_filename_pattern` (lines 277-312). -/
def cfpFold (file : String) (st : CFPState) (p : String) : CFPState :=
  let f := lastSegment p
  if f = file then st
  else
    let mbs := get_matching_blocks file.data f.data
    match st.common with
    | none =>
      let r := spansOfMatches mbs
      { common := some r.1, first := r.2.1, last := r.2.2 }
    | some common =>
      let r := intersectSpans mbs common
      { common := some r.1, first := r.2.1, last := r.2.2 }

/-- One surviving span of the pattern-building loop (lines 320-329): insert
a `*` separator unless at the first span or already ending in `*`, then
append the literal text when it is longer than one character. -/
def cfpChunkStep (file : String) (st : String × Bool) (span : Nat × Nat) :
    String × Bool :=
  let pattern := st.1
  let pattern :=
    if st.2 = false ∧ (pattern.data = [] ∨ pattern.data.getLast? ≠ some '*') then
      pattern ++ "*"
    else pattern
  let part : List Char := (file.data.drop span.1).take (span.2 - span.1)
  let pattern := if part.length > 1 then pattern ++ String.mk part else pattern
  (pattern, false)

/-- `Collect.create_filename_pattern` (lines 271-332).  Returns `none` for
Python `None` (every candidate had the seed's filename). -/
def create_filename_pattern (path : String) (candidates : List String) :
    Option String :=
  let file := lastSegment path
  let st := candidates.foldl (cfpFold file) ⟨none, none, none⟩
  match st.common with
  | none => none
  | some [] => some ("*")
  | some common =>
    let start := if st.first ≠ some 0 then "*" else ""
    let r := common.foldl (cfpChunkStep file) (start, true)
    some (if st.last ≠ some file.length then r.1 ++ "*" else r.1)

/-- Differing-segment collection for one candidate (lines 345-347). -/
def diffIndicesOne (path_parts cand_parts : List String) (acc : List Nat) :
    List Nat :=
  (List.range path_parts.length).foldl
    (fun acc i =>
      if path_parts.getD i ("") ≠ cand_parts.getD i ("") ∧ ¬ acc.contains i then
        acc ++ [i]
      else acc)
    acc

/-- The candidate loop of `find_path_pattern` (lines 339-347): `none` when a
candidate has a different number of segments. -/
def pathDifferences (path_parts : List String) :
    List String → List Nat → Option (List Nat)
  | [], acc => some acc
  | c :: cs, acc =>
    let cp := splitSlash c
    if cp.length ≠ path_parts.length then none
    else pathDifferences path_parts cs (diffIndicesOne path_parts cp acc)

/-- Replace segment `d` of the path pattern by a wildcard segment:
Python `pattern.replace(f"/{path_parts[d]}/", "/*/")` (replace-all). -/
def wildcardSegment (path_parts : List String) (pat : String) (d : Nat) : String :=
  strReplace pat ("/" ++ path_parts.getD d ("") ++ "/") ("/*/")

/-- `Collect.find_path_pattern` (lines 334-373). -/
def find_path_pattern (path : String) (candidates : List String) :
    Option String :=
  let path_parts := splitSlash path
  match pathDifferences path_parts candidates [] with
  | none => none
  | some diffs0 =>
    let differences := sortBy (fun a b => decide (a ≤ b)) diffs0
    if differences = [] then none
    else
      let n := path_parts.length
      let lastDiff := differences.getLastD 0
      let filename_matches := lastDiff ≠ n - 1
      if n - differences.length > MIN_STABLE_PATH ∧ filename_matches then
        some (differences.foldl (wildcardSegment path_parts) path)
      else if differences.length = 1 ∧ differences.getD 0 0 ≠ n - 1 then
        some (wildcardSegment path_parts path (differences.getD 0 0))
      else if lastDiff = n - 1 ∧
          (differences.length = 2 ∨ n - differences.length > MIN_STABLE_PATH) then
        match create_filename_pattern path candidates with
        | none => none
        | some fnpat =>
          let pat := differences.dropLast.foldl (wildcardSegment path_parts) path
          some (strReplace pat ("/" ++ path_parts.getD lastDiff (""))
            ("/" ++ fnpat))
      else none

/-- `Collect.matches_existing_pattern` (lines 375-382). -/
def matches_existing_pattern (patterns : List String) (url : String) : Bool :=
  patterns.contains url || patterns.any fun p => url_matches_pattern url p

/-! ## Clustering and validation (`Collect.find_patterns`, lines 392-476) -/

/-- Strip the `FILENAME_IGNORE` substrings from a filename
(lines 401-403 and 417-419). -/
def stripIgnore (s : String) : String :=
  FILENAME_IGNORE.foldl (fun s ig => strReplace s ig ("")) s

/-- Length bound for `rcGo`: replacement by something no longer never grows
the string (the `skip` characters are consumed without output). -/
theorem rcGo_length_le (old new : List Char) (hle : new.length ≤ old.length) :
    ∀ (s : List Char) (skip : Nat), (rcGo old new s skip).length ≤ s.length - skip := by
  intro s
  induction s with
  | nil => intro skip; simp [rcGo]
  | cons x xs ih =>
    intro skip
    match skip with
    | skip + 1 =>
      have := ih skip
      simp only [rcGo, List.length_cons]
      omega
    | 0 =>
      by_cases hc : old ≠ [] ∧ old.isPrefixOf (x :: xs)
      · rw [rcGo, if_pos hc]
        have hlen : old.length ≤ (x :: xs).length :=
          List.IsPrefix.length_le (List.isPrefixOf_iff_prefix.mp hc.2)
        have := ih (old.length - 1)
        simp only [List.length_append, List.length_cons] at *
        omega
      · rw [rcGo, if_neg hc]
        have := ih 0
        simp only [List.length_cons] at *
        omega

theorem replaceChars_length_le (old new : List Char)
    (hle : new.length ≤ old.length) (s : List Char) :
    (replaceChars old new s).length ≤ s.length := by
  have := rcGo_length_le old new hle s 0
  simpa [replaceChars] using this

/-- Strict length decrease for `replaceChars` when the needle occurs and the
replacement is strictly shorter. -/
theorem replaceChars_length_lt (old new : List Char) (hlt : new.length < old.length) :
    ∀ s : List Char, containsSubstr old s = true →
      (replaceChars old new s).length < s.length := by
  intro s
  induction s with
  | nil =>
    intro hc
    simp only [containsSubstr, List.isEmpty_iff] at hc
    subst hc
    simp at hlt
  | cons x xs ih =>
    intro hc
    have hne : old ≠ [] := by
      intro h
      rw [h] at hlt
      simp at hlt
    by_cases hp : old.isPrefixOf (x :: xs)
    · rw [replaceChars, rcGo, if_pos ⟨hne, hp⟩]
      have hlen : old.length ≤ (x :: xs).length :=
        List.IsPrefix.length_le (List.isPrefixOf_iff_prefix.mp hp)
      have := rcGo_length_le old new (Nat.le_of_lt hlt) xs (old.length - 1)
      simp only [List.length_append, List.length_cons] at *
      omega
    · rw [replaceChars, rcGo, if_neg (by simp [hp])]
      simp only [containsSubstr, Bool.or_eq_true] at hc
      rcases hc with hc | hc
      · exact absurd hc hp
      · have := ih hc
        simp only [replaceChars] at this
        simp only [List.length_cons]
        omega

/-- One bounded pass of the `while "/*/*/" in pattern` loop. -/
def csGo : Nat → String → String
  | 0, pat => pat
  | fuel + 1, pat =>
    if strContainsSubstr pat ("/*/*/") = true then
      csGo fuel (strReplace pat ("/*/*/") ("/*/"))
    else pat

/-- The `while "/*/*/" in pattern` loop of lines 447-448: every pass
strictly shortens the pattern, so `pat.length` passes always suffice
(`csGo_adequate`). -/
def collapseSlashStars (pat : String) : String := csGo pat.length pat

theorem string_length_data (s : String) : s.length = s.data.length := by
  cases s
  rfl

theorem csGo_adequate :
    ∀ (f1 f2 : Nat) (pat : String), pat.length ≤ f1 → pat.length ≤ f2 →
      csGo f1 pat = csGo f2 pat := by
  intro f1
  induction f1 with
  | zero =>
    intro f2 pat h1 h2
    have hdata : pat.data = [] := by
      have hl : pat.data.length = 0 := by
        rw [← string_length_data]
        exact Nat.le_zero.mp h1
      exact List.length_eq_zero.mp hl
    have hnc : strContainsSubstr pat ("/*/*/") = false := by
      show containsSubstr (String.data ("/*/*/")) pat.data = false
      rw [hdata]
      rfl
    cases f2 with
    | zero => rfl
    | succ f2 => simp [csGo, hnc]
  | succ f1 ih =>
    intro f2 pat h1 h2
    by_cases hc : strContainsSubstr pat ("/*/*/") = true
    · have hne : pat.data ≠ [] := by
        intro h
        rw [strContainsSubstr, h] at hc
        simp [containsSubstr] at hc
      have hlt : (strReplace pat ("/*/*/") ("/*/")).length < pat.length :=
        replaceChars_length_lt (String.data ("/*/*/")) (String.data ("/*/"))
          (by decide) pat.data hc
      cases f2 with
      | zero =>
        exfalso
        have hl : pat.data.length = 0 := by
          rw [← string_length_data]
          exact Nat.le_zero.mp h2
        exact hne (List.length_eq_zero.mp hl)
      | succ f2 =>
        simp only [csGo, if_pos hc]
        exact ih f2 _ (by omega) (by omega)
    · cases f2 with
      | zero => simp only [csGo, if_neg hc]
      | succ f2 => simp only [csGo, if_neg hc]

/-- The size-window test of lines 433-438.  `size_delta / target_size` is a
Python float division: it raises `ZeroDivisionError` when the seed's
current-month size is zero.  For a positive divisor the comparison with
`SIZE_MATCH_PERCENT` is carried out in exact integer arithmetic; this
agrees with the float comparison (`sizeWindow_div_iff`), whose operands
here are exactly representable. -/
def sizeWindowOk (target tmin tmax size : Nat) : Except String Bool :=
  let delta : Nat :=
    if size < tmin then (tmin - size) * 100
    else if size > tmax then (size - tmax) * 100
    else 0
  if target = 0 then Except.error ("ZeroDivisionError")
  else Except.ok (decide (delta ≤ SIZE_MATCH_PERCENT * target))

/-- For a positive divisor, the integer comparison of `sizeWindowOk` is the
division comparison written in the source. -/
theorem sizeWindow_div_iff (delta target : Nat) (h : 0 < target) :
    delta ≤ SIZE_MATCH_PERCENT * target ↔
      (delta : ℚ) / (target : ℚ) ≤ (SIZE_MATCH_PERCENT : ℚ) := by
  rw [div_le_iff (by exact_mod_cast h)]
  constructor
  · intro hle
    calc (delta : ℚ) ≤ ((SIZE_MATCH_PERCENT * target : Nat) : ℚ) := by exact_mod_cast hle
    _ = (SIZE_MATCH_PERCENT : ℚ) * (target : ℚ) := by push_cast; ring
  · intro hle
    have : (delta : ℚ) ≤ ((SIZE_MATCH_PERCENT * target : Nat) : ℚ) := by
      calc (delta : ℚ) ≤ (SIZE_MATCH_PERCENT : ℚ) * (target : ℚ) := hle
      _ = ((SIZE_MATCH_PERCENT * target : Nat) : ℚ) := by push_cast; ring
    exact_mod_cast this

/-- The filename similarity test of the candidate filter (lines 420-429):
alignment ratio at least `MIN_FILENAME_RATIO`, at most
`MAX_FILENAME_MATCHING_BLOCKS` matching blocks as reported by
`get_matching_blocks` (a count that includes the terminating dummy block),
and stripped lengths within `MAX_FILENAME_LENGTH_DIFFERENCE`. -/
def filenameSimilar (filepart cfilepart : String) : Bool :=
  ratioGeHalf filepart.data cfilepart.data &&
    decide ((get_matching_blocks filepart.data cfilepart.data).length ≤
      MAX_FILENAME_MATCHING_BLOCKS) &&
    decide (((filepart.length : Int) - (cfilepart.length : Int)).natAbs ≤
      MAX_FILENAME_LENGTH_DIFFERENCE)

/-- One sibling `p` of the candidate loop of lines 414-441, threading
`(target_size_min, target_size_max, candidates)`. -/
def candidateStep (o : OriginMap) (dests : Dests) (origin path : String)
    (filepart : String) (dest : Option String) (path_segments target : Nat)
    (st : Nat × Nat × List String) (p : String) :
    Except String (Nat × Nat × List String) :=
  let curl := origin ++ p
  let cdest := alGet dests curl
  let cfilepart := stripIgnore (lastSegment p)
  if p ≠ path ∧ ¬ st.2.2.contains p ∧ cdest = dest ∧
      (splitSlash p).length = path_segments ∧
      filenameSimilar filepart cfilepart = true then
    match (alGet o p).getD [] with
    | [] => Except.error ("IndexError")
    | (_, htab) :: _ =>
      match htab with
      | [] => Except.error ("IndexError")
      | (_, stat) :: _ => do
        let ok ← sizeWindowOk target st.1 st.2.1 stat.size
        if ok then
          Except.ok (min st.1 stat.size, max st.2.1 stat.size, st.2.2 ++ [p])
        else Except.ok st
  else Except.ok st

/-- Inner `for p in o` of the validation loop (lines 455-460): collect every
matching path and add the first content hash's count for months the path
has.  (A path's month table is never empty in reachable states; Python
would raise `IndexError` there, which we model as an error too.) -/
def validateDateFold (pat d : String) (st : List String × Nat)
    (entry : String × PathHist) : Except String (List String × Nat) :=
  if url_matches_pattern entry.1 pat then do
    let c ← (match alGet entry.2 d with
      | some [] => Except.error ("IndexError")
      | some ((_, stat) :: _) => Except.ok stat.count
      | none => Except.ok 0)
    Except.ok (st.1 ++ [entry.1], st.2 + c)
  else Except.ok st

/-- The validation loop of lines 449-463: per tracked month, sum the counts
of the matching paths; every month must reach `PERVASIVE_COUNT` (the flag
is sticky, no early exit).  Matching paths are re-collected every month,
exactly as in the source. -/
def validateDates (o : OriginMap) (pat : String) (dates : List String) :
    Except String (List String × Bool) :=
  dates.foldlM
    (fun st d => do
      let r ← o.foldlM (validateDateFold pat d) (st.1, 0)
      Except.ok (r.1, st.2 && decide (r.2 ≥ PERVASIVE_COUNT)))
    ([], true)

/-- Deletion of the consumed paths (lines 472-475). -/
def removeMatched (o : OriginMap) (matched : List String) : OriginMap :=
  matched.foldl (fun o p2 => if alHas o p2 then alErase o p2 else o) o

/-- Body of the `for path in list(o.keys())` loop of `find_patterns`
(lines 399-476) for one seed path. -/
def processSeed (dates : List String) (currentDate : String) (dests : Dests)
    (origin : String) (st : OriginMap × List String) (path : String) :
    Except String (OriginMap × List String) :=
  let o := st.1
  let patterns := st.2
  let url := origin ++ path
  let filepart := stripIgnore (lastSegment path)
  let histOpt := alGet o path
  if alHas dests url ∧ histOpt.isSome ∧ alHas (histOpt.getD []) currentDate ∧
      matches_existing_pattern patterns url = false then
    match alGet (histOpt.getD []) currentDate with
    | none => Except.ok (o, patterns)
    | some [] => Except.error ("IndexError")
    | some ((_, stat0) :: _) => do
      let target := stat0.size
      let path_segments := (splitSlash path).length
      let dest := alGet dests url
      let r ← (alKeys o).foldlM
        (candidateStep o dests origin path filepart dest path_segments target)
        (target, target, [])
      let candidates := r.2.2
      if candidates.isEmpty then Except.ok (o, patterns)
      else
        match find_path_pattern path candidates with
        | none => Except.ok (o, patterns)
        | some pat0 =>
          let pat1 := WILDCARD_REPLACE.foldl
            (fun pat sub => strReplace pat sub ("*")) pat0
          let pat2 := collapseSlashStars pat1
          do
            let v ← validateDates o pat2 dates
            let patterns' :=
              if v.2 then patterns ++ [origin ++ pat2] else patterns
            Except.ok (removeMatched o v.1, patterns')
  else Except.ok (o, patterns)

/-- `find_patterns` on one origin: iterate a snapshot of the path keys. -/
def find_patterns_origin (dates : List String) (currentDate : String)
    (dests : Dests) (origin : String) (o : OriginMap) (patterns : List String) :
    Except String (OriginMap × List String) :=
  (alKeys o).foldlM (processSeed dates currentDate dests origin) (o, patterns)

/-- `Collect.find_patterns` (lines 392-476). -/
def find_patterns (dates : List String) (currentDate : String) (dests : Dests)
    (idx : Index) (patterns : List String) :
    Except String (Index × List String) :=
  (alKeys idx).foldlM
    (fun acc origin =>
      match alGet acc.1 origin with
      | none => Except.ok acc
      | some o => do
        let r ← find_patterns_origin dates currentDate dests origin o acc.2
        Except.ok (alSet acc.1 origin r.1, r.2))
    (idx, patterns)

/-! ## Deduplication (`Collect.remove_duplicate_patterns`, lines 500-509) -/

/-- Python `list.remove`: drop the first occurrence, or `none` for the
`ValueError` raised when the element is absent. -/
def removeFirst : List String → String → Option (List String)
  | [], _ => none
  | x :: xs, y => if x = y then some xs else (removeFirst xs y).map (x :: ·)

/-- Inner loop of `remove_duplicate_patterns`: `pattern2` runs over the
snapshot taken at the start of this outer iteration while the live list is
mutated. -/
def dedupInner (p1 : String) : List String → List String → Except String (List String)
  | [], pats => Except.ok pats
  | p2 :: rest, pats =>
    if p1 ≠ p2 ∧ p1.length ≠ p2.length then
      let shorter := if p1.length < p2.length then p1 else p2
      let longer := if p1.length > p2.length then p1 else p2
      if url_matches_pattern longer shorter then
        match removeFirst pats longer with
        | none => Except.error ("ValueError")
        | some pats' => dedupInner p1 rest pats'
      else dedupInner p1 rest pats
    else dedupInner p1 rest pats

/-- Outer loop of `remove_duplicate_patterns`: `pattern1` runs over the
snapshot taken before the pass. -/
def dedupOuter : List String → List String → Except String (List String)
  | [], pats => Except.ok pats
  | p1 :: rest, pats => do
    let pats' ← dedupInner p1 pats pats
    dedupOuter rest pats'

/-- `Collect.remove_duplicate_patterns` (lines 500-509). -/
def remove_duplicate_patterns (patterns : List String) :
    Except String (List String) :=
  dedupOuter patterns patterns

/-! ## The full pipeline (`Collect.aggregate_urls`, lines 511-524) -/

/-- Ingest every tracked month in order. -/
def loadMonths (currentDate : String) :
    List (String × List RawEntry) → LoadState → Except String LoadState
  | [], st => Except.ok st
  | (d, es) :: rest, st => do
    let st' ← load_date currentDate d es st
    loadMonths currentDate rest st'

/-- `Collect.aggregate_urls` (lines 511-524) without its I/O:
ingest all months (most recent first, as in `Collect.dates`), extract the
pervasive-fixed URLs, apply the exclusion filters, synthesize and validate
patterns, deduplicate, and sort.  `show_unmatched` and `write_patterns`
only log and serialize; they do not change the pattern list. -/
def aggregate_urls (dates : List String) (months : List (List RawEntry)) :
    Except String (List String) := do
  let currentDate := dates.headD ("")
  let st ← loadMonths currentDate (dates.zip months)
    { origins := [], destinations := [] }
  let r1 := find_pervasive_urls dates st.origins []
  let idx2 := remove_long_urls r1.1
  let idx3 := remove_static_urls dates idx2
  let idx4 := remove_unversioned_urls idx3
  let idx5 := remove_blocked_urls idx4
  let r2 ← find_patterns dates currentDate st.destinations idx5 r1.2
  let pats ← remove_duplicate_patterns r2.2
  Except.ok (sortBy strLe pats)

/-! ## Claim C4: reflexivity of accepted patterns fails (code bug)

A seed whose filename is a single character, clustered with a sibling whose
filename extends it, makes `create_filename_pattern` drop its only literal
chunk (only chunks of length `> 1` are emitted) without adding any
wildcard: the filename pattern is the empty string, and the synthesized
pattern ends in `/` and cannot match the seed.  Such a pattern can still be
accepted when other working-set paths match it and clear the threshold. -/

def mkEntry (url hash dest : String) (size num : Nat) : RawEntry :=
  { url := some url, body_hash := some hash, dest := some dest,
    size := some size, num := some num }

def scen4dates : List String := ["2025-10", "2025-09"]

def scen4months : List (List RawEntry) :=
  [[mkEntry ("https://o.com/v1/b/x") ("h1") ("script") 2000 50000,
    mkEntry ("https://o.com/v2/b/xy") ("h2") ("script") 2000 50000,
    mkEntry ("https://o.com/cc/b/") ("h3") ("script") 3000 100000],
   [mkEntry ("https://o.com/aa/b/") ("h4") ("script") 3000 100000]]

/-- Claim C4 (code bug witness): on this input the full pipeline accepts
exactly the pattern `https://o.com/*/b/`, synthesized from the seed path
`/v1/b/x` with candidate `/v2/b/xy` (its filename pattern degenerates to
the empty string), and the accepted pattern does not match its originating
seed path. -/
theorem claim_C4_code_bug :
    aggregate_urls scen4dates scen4months = Except.ok ["https://o.com/*/b/"] ∧
    create_filename_pattern ("/v1/b/x") ["/v2/b/xy"] = some ("") ∧
    find_path_pattern ("/v1/b/x") ["/v2/b/xy"] = some ("/*/b/") ∧
    url_matches_pattern ("https://o.com/v1/b/x") ("https://o.com/*/b/") = false := by
  refine ⟨by decide, by decide, by decide, by decide⟩

/-! ## Claim C9: the unguarded size-window division -/

def scen9idx : Index :=
  [("https://z.com",
    [("/a/f1", [("2025-10", [("h1", { count := 200000, size := 0 })])]),
     ("/a/f2", [("2025-10", [("h2", { count := 200000, size := 5 })])])])]

def scen9dests : Dests :=
  [("https://z.com/a/f1", "script"), ("https://z.com/a/f2", "script")]

/-- Claim C9: the candidate size-window check divides by the seed's
current-month size with no zero guard.  Under a positive-size precondition
the division is safe; a zero-size seed together with a qualifying sibling
of strictly larger size reaches the `ZeroDivisionError` branch even though
the input contract only promises non-negative sizes. -/
theorem claim_C9 :
    (∀ target tmin tmax size : Nat, 0 < target →
      exceptOk (sizeWindowOk target tmin tmax size) = true) ∧
    find_patterns ["2025-10"] ("2025-10") scen9dests scen9idx [] =
      Except.error ("ZeroDivisionError") := by
  constructor
  · intro target tmin tmax size h
    unfold sizeWindowOk
    rw [if_neg (Nat.pos_iff_ne_zero.mp h)]
    rfl
  · decide

theorem claim_C9_witness :
    0 < 2000 ∧ exceptOk (sizeWindowOk 2000 2000 2000 2050) = true :=
  ⟨by decide, claim_C9.1 2000 2000 2000 2050 (by decide)⟩

/-! ## Claim C8: the matching-blocks bound counts the dummy block -/

/-- The number of genuine (positive-size) aligned matching runs between two
strings, excluding the terminating dummy block. -/
def genuineBlockCount (a b : List Char) : Nat :=
  ((get_matching_blocks a b).filter fun x => x.size ≠ 0).length

theorem collapse_fold_sizes (blocks : List MBlock) :
    ∀ st : MBlock × List MBlock, (∀ x ∈ st.2, x.size ≠ 0) →
      ∀ x ∈ (blocks.foldl collapseStep st).2, x.size ≠ 0 := by
  induction blocks with
  | nil => intro st h; exact h
  | cons b blocks ih =>
    intro st h
    simp only [List.foldl_cons]
    refine ih _ ?_
    unfold collapseStep
    by_cases hadj : st.1.a + st.1.size = b.a ∧ st.1.b + st.1.size = b.b
    · rw [if_pos hadj]
      exact h
    · rw [if_neg hadj]
      by_cases hz : st.1.size ≠ 0
      · simp only [if_pos hz]
        intro x hx
        rcases List.mem_append.mp hx with hx | hx
        · exact h x hx
        · rcases List.mem_singleton.mp hx with rfl
          exact hz
      · simp only [if_neg hz]
        exact h

/-- Every block that `collapseAdjacent` emits has positive size. -/
theorem collapseAdjacent_sizes (blocks : List MBlock) :
    ∀ x ∈ collapseAdjacent blocks, x.size ≠ 0 := by
  unfold collapseAdjacent
  by_cases hz : (blocks.foldl collapseStep (MBlock.mk 0 0 0, [])).1.size ≠ 0
  · simp only [if_pos hz]
    intro x hx
    rcases List.mem_append.mp hx with hx | hx
    · exact collapse_fold_sizes blocks _ (by simp) x hx
    · rcases List.mem_singleton.mp hx with rfl
      exact hz
  · simp only [if_neg hz]
    exact collapse_fold_sizes blocks _ (by simp)

/-- `get_matching_blocks` is its genuine blocks followed by the single
terminating dummy, so the reported length is the number of genuine aligned
runs plus one. -/
theorem genuineBlockCount_eq (a b : List Char) :
    genuineBlockCount a b + 1 = (get_matching_blocks a b).length := by
  unfold genuineBlockCount get_matching_blocks
  set gs := collapseAdjacent (sortBy mblockLe (gmbRec a b 0 a.length 0 b.length))
    with hgs
  have hsz : ∀ x ∈ gs, x.size ≠ 0 := hgs ▸ collapseAdjacent_sizes _
  have hfil : (gs ++ [MBlock.mk a.length b.length 0]).filter
      (fun x => decide (x.size ≠ 0)) = gs := by
    rw [List.filter_append]
    have h1 : gs.filter (fun x => decide (x.size ≠ 0)) = gs :=
      List.filter_eq_self.mpr (fun x hx => by simpa using hsz x hx)
    have h2 : ([MBlock.mk a.length b.length 0] : List MBlock).filter
        (fun x => decide (x.size ≠ 0)) = [] := by simp
    rw [h1, h2, List.append_nil]
  rw [hfil]
  simp

/-- Claim C8 counterexample: stripped filenames `axbycz` and `a1b2c3` align
in exactly 3 genuine matching runs, their ratio meets
`MIN_FILENAME_RATIO` and their lengths are equal, yet the similarity test
rejects the pair (`get_matching_blocks` reports 4 blocks, counting the
terminating dummy), so the sibling is not admitted as a candidate. -/
theorem claim_C8_counterexample :
    genuineBlockCount (String.data ("axbycz")) (String.data ("a1b2c3")) = 3 ∧
    ratioGeHalf (String.data ("axbycz")) (String.data ("a1b2c3")) = true ∧
    String.length ("axbycz") = String.length ("a1b2c3") ∧
    filenameSimilar ("axbycz") ("a1b2c3") = false ∧
    candidateStep
      [("/axbycz", [("2025-10", [("h1", { count := 1, size := 100 })])]),
       ("/a1b2c3", [("2025-10", [("h2", { count := 1, size := 100 })])])]
      [("o/axbycz", "script"), ("o/a1b2c3", "script")]
      ("o") ("/axbycz") ("axbycz") (some ("script")) 2 100
      (100, 100, []) ("/a1b2c3") = Except.ok (100, 100, []) := by
  refine ⟨by decide, by decide, by decide, by decide, by decide⟩

/-- Claim C8 (amended): the filename similarity test admits a pair iff the
ratio is at least `MIN_FILENAME_RATIO`, the length of
`get_matching_blocks` (which includes the terminating dummy block) is at
most `MAX_FILENAME_MATCHING_BLOCKS`, and the stripped lengths differ by at
most `MAX_FILENAME_LENGTH_DIFFERENCE`; consequently an admitted pair has
at most 2 genuine aligned matching runs, and a pair aligning in exactly 3
genuine runs fails the matching-runs condition. -/
theorem claim_C8_amended (fp cfp : String) :
    (filenameSimilar fp cfp = true ↔
      (sm_ratio fp.data cfp.data ≥ minFilenameRatio ∧
       (get_matching_blocks fp.data cfp.data).length ≤
         MAX_FILENAME_MATCHING_BLOCKS ∧
       ((fp.length : Int) - (cfp.length : Int)).natAbs ≤
         MAX_FILENAME_LENGTH_DIFFERENCE)) ∧
    (filenameSimilar fp cfp = true → genuineBlockCount fp.data cfp.data ≤ 2) := by
  have hiff : filenameSimilar fp cfp = true ↔
      (sm_ratio fp.data cfp.data ≥ minFilenameRatio ∧
       (get_matching_blocks fp.data cfp.data).length ≤
         MAX_FILENAME_MATCHING_BLOCKS ∧
       ((fp.length : Int) - (cfp.length : Int)).natAbs ≤
         MAX_FILENAME_LENGTH_DIFFERENCE) := by
    unfold filenameSimilar
    rw [Bool.and_eq_true, Bool.and_eq_true, ratioGeHalf_iff]
    simp [and_assoc]
  refine ⟨hiff, fun h => ?_⟩
  have hlen := (hiff.mp h).2.1
  have heq := genuineBlockCount_eq fp.data cfp.data
  unfold MAX_FILENAME_MATCHING_BLOCKS at hlen
  omega

theorem claim_C8_amended_witness :
    filenameSimilar ("f1") ("f2") = true ∧
      genuineBlockCount (String.data ("f1")) (String.data ("f2")) ≤ 2 :=
  ⟨by decide, (claim_C8_amended ("f1") ("f2")).2 (by decide)⟩

/-! ## Association-list lemmas -/

theorem alGet_mem {v : Type} {m : List (String × v)} {k : String} {x : v}
    (h : alGet m k = some x) : (k, x) ∈ m := by
  induction m with
  | nil => simp [alGet] at h
  | cons e m ih =>
    obtain ⟨a, y⟩ := e
    rw [alGet] at h
    by_cases he : a = k
    · simp only [if_pos he] at h
      cases h
      subst he
      exact List.mem_cons_self _ _
    · simp only [if_neg he] at h
      exact List.mem_cons_of_mem _ (ih h)

theorem alGet_mem_keys {v : Type} {m : List (String × v)} {k : String} {x : v}
    (h : alGet m k = some x) : k ∈ alKeys m := by
  have := alGet_mem h
  exact List.mem_map.mpr ⟨(k, x), this, rfl⟩

theorem alGet_erase_ne {v : Type} (m : List (String × v)) (k k' : String)
    (h : k ≠ k') : alGet (alErase m k) k' = alGet m k' := by
  induction m with
  | nil => rfl
  | cons e m ih =>
    obtain ⟨a, y⟩ := e
    rw [alErase]
    by_cases he : a = k
    · rw [if_pos he, alGet, if_neg (by rw [he]; exact h)]
    · rw [if_neg he, alGet, alGet]
      by_cases he' : a = k'
      · rw [if_pos he', if_pos he']
      · rw [if_neg he', if_neg he']
        exact ih

theorem alGet_erase_none {v : Type} (m : List (String × v)) (k k' : String)
    (h : alGet m k' = none) : alGet (alErase m k) k' = none := by
  induction m with
  | nil => rfl
  | cons e m ih =>
    obtain ⟨a, y⟩ := e
    rw [alGet] at h
    by_cases he' : a = k'
    · rw [if_pos he'] at h
      cases h
    · rw [if_neg he'] at h
      rw [alErase]
      by_cases he : a = k
      · rw [if_pos he]
        exact h
      · rw [if_neg he, alGet, if_neg he']
        exact ih h

theorem alErase_sublist {v : Type} (m : List (String × v)) (k : String) :
    List.Sublist (alErase m k) m := by
  induction m with
  | nil => simp [alErase]
  | cons e m ih =>
    obtain ⟨a, y⟩ := e
    rw [alErase]
    by_cases he : a = k
    · rw [if_pos he]
      exact List.sublist_cons_self _ _
    · rw [if_neg he]
      exact List.Sublist.cons₂ _ ih

theorem alKeys_erase_sublist {v : Type} (m : List (String × v)) (k : String) :
    List.Sublist (alKeys (alErase m k)) (alKeys m) :=
  List.Sublist.map Prod.fst (alErase_sublist m k)

theorem alHas_erase_self {v : Type} (m : List (String × v)) (k : String)
    (h : (alKeys m).Nodup) : alHas (alErase m k) k = false := by
  induction m with
  | nil => rfl
  | cons e m ih =>
    obtain ⟨a, y⟩ := e
    rw [alErase]
    simp only [alKeys, List.map_cons, List.nodup_cons] at h
    by_cases he : a = k
    · rw [if_pos he]
      subst he
      have hnone : alGet m a = none := by
        by_contra hne
        rcases Option.ne_none_iff_exists.mp hne with ⟨x, hx⟩
        exact h.1 (alGet_mem_keys hx.symm)
      simp [alHas, hnone]
    · simp only [alHas, alGet, if_neg he]
      exact ih h.2

theorem alGet_set_self {v : Type} (m : List (String × v)) (k : String) (x : v) :
    alGet (alSet m k x) k = some x := by
  induction m with
  | nil => simp [alSet, alGet]
  | cons e m ih =>
    obtain ⟨a, y⟩ := e
    rw [alSet]
    by_cases he : a = k
    · rw [if_pos he, alGet, if_pos he]
    · rw [if_neg he, alGet, if_neg he]
      exact ih

theorem alGet_set_ne {v : Type} (m : List (String × v)) (k k' : String) (x : v)
    (h : k ≠ k') : alGet (alSet m k x) k' = alGet m k' := by
  induction m with
  | nil =>
    simp only [alSet, alGet, if_neg h]
  | cons e m ih =>
    obtain ⟨a, y⟩ := e
    rw [alSet]
    by_cases he : a = k
    · rw [if_pos he, alGet, alGet, if_neg (by rw [he]; exact h),
        if_neg (by rw [he]; exact h)]
    · rw [if_neg he, alGet, alGet]
      by_cases he' : a = k'
      · rw [if_pos he', if_pos he']
      · rw [if_neg he', if_neg he']
        exact ih

/-! ## Claim C2: the pervasive-fixed classifier -/

/-- `pervasiveCheck` is the per-month threshold condition. -/
theorem pervasiveCheck_iff (hist : PathHist) (dates : List String) :
    pervasiveCheck hist dates = true ↔
      ∀ d ∈ dates, PERVASIVE_COUNT ≤ monthTotal hist d := by
  induction dates with
  | nil => exact ⟨fun _ d hd => absurd hd (List.not_mem_nil d), fun _ => rfl⟩
  | cons d ds ih =>
    rw [pervasiveCheck]
    by_cases hlt : monthTotal hist d < PERVASIVE_COUNT
    · rw [if_pos hlt]
      refine ⟨fun h => absurd h Bool.false_ne_true, fun hall => ?_⟩
      exact absurd (hall d (List.mem_cons_self _ _)) (by omega)
    · rw [if_neg hlt]
      rw [ih]
      constructor
      · intro hall e he
        rcases List.mem_cons.mp he with rfl | he
        · omega
        · exact hall e he
      · intro hall e he
        exact hall e (List.mem_cons_of_mem _ he)

theorem pervasiveStep_none {dates : List String} {origin : String}
    {acc : OriginMap × List String} {k : String}
    (h : alGet acc.1 k = none) : pervasiveStep dates origin acc k = acc := by
  unfold pervasiveStep
  rw [h]

theorem pervasiveStep_some {dates : List String} {origin : String}
    {acc : OriginMap × List String} {k : String} {hist : PathHist}
    (h : alGet acc.1 k = some hist) :
    pervasiveStep dates origin acc k =
      (if hist.length = dates.length then
        if pervasiveCheck hist dates = true then
          (alErase acc.1 k,
            if acc.2.contains (origin ++ k) = true then acc.2
            else acc.2 ++ [origin ++ k])
        else acc
      else acc) := by
  unfold pervasiveStep
  rw [h]

theorem pervasiveStep_pats_mono (dates : List String) (origin : String)
    (acc : OriginMap × List String) (k : String) {u : String} (h : u ∈ acc.2) :
    u ∈ (pervasiveStep dates origin acc k).2 := by
  cases hg : alGet acc.1 k with
  | none => rw [pervasiveStep_none hg]; exact h
  | some hist =>
    rw [pervasiveStep_some hg]
    by_cases h1 : hist.length = dates.length
    · rw [if_pos h1]
      by_cases h2 : pervasiveCheck hist dates = true
      · rw [if_pos h2]
        by_cases h3 : acc.2.contains (origin ++ k) = true
        · rw [if_pos h3]
          exact h
        · rw [if_neg h3]
          exact List.mem_append.mpr (Or.inl h)
      · rw [if_neg h2]
        exact h
    · rw [if_neg h1]
      exact h

theorem pervasiveFold_pats_mono (dates : List String) (origin : String)
    (ks : List String) :
    ∀ (acc : OriginMap × List String) {u : String}, u ∈ acc.2 →
      u ∈ (ks.foldl (pervasiveStep dates origin) acc).2 := by
  induction ks with
  | nil => intro acc u h; exact h
  | cons k ks ih =>
    intro acc u h
    exact ih _ (pervasiveStep_pats_mono dates origin acc k h)

theorem pervasiveStep_map (dates : List String) (origin : String)
    (acc : OriginMap × List String) (k : String) :
    (pervasiveStep dates origin acc k).1 = acc.1 ∨
      (pervasiveStep dates origin acc k).1 = alErase acc.1 k := by
  cases hg : alGet acc.1 k with
  | none => rw [pervasiveStep_none hg]; exact Or.inl rfl
  | some hist =>
    rw [pervasiveStep_some hg]
    by_cases h1 : hist.length = dates.length
    · rw [if_pos h1]
      by_cases h2 : pervasiveCheck hist dates = true
      · rw [if_pos h2]
        exact Or.inr rfl
      · rw [if_neg h2]
        exact Or.inl rfl
    · rw [if_neg h1]
      exact Or.inl rfl

theorem pervasiveFold_get_ne (dates : List String) (origin : String)
    (ks : List String) (path : String) (hk : ∀ k ∈ ks, k ≠ path) :
    ∀ acc : OriginMap × List String,
      alGet (ks.foldl (pervasiveStep dates origin) acc).1 path =
        alGet acc.1 path := by
  induction ks with
  | nil => intro acc; rfl
  | cons k ks ih =>
    intro acc
    rw [List.foldl_cons]
    rw [ih (fun x hx => hk x (List.mem_cons_of_mem _ hx))]
    rcases pervasiveStep_map dates origin acc k with h | h
    · rw [h]
    · rw [h, alGet_erase_ne _ _ _ (hk k (List.mem_cons_self _ _))]

theorem pervasiveFold_get_none (dates : List String) (origin : String)
    (ks : List String) (path : String) :
    ∀ acc : OriginMap × List String, alGet acc.1 path = none →
      alGet (ks.foldl (pervasiveStep dates origin) acc).1 path = none := by
  induction ks with
  | nil => intro acc h; exact h
  | cons k ks ih =>
    intro acc h
    rw [List.foldl_cons]
    refine ih _ ?_
    rcases pervasiveStep_map dates origin acc k with hm | hm
    · rw [hm]; exact h
    · rw [hm]; exact alGet_erase_none _ _ _ h

theorem pervasiveFold_keys_sublist (dates : List String) (origin : String)
    (ks : List String) :
    ∀ acc : OriginMap × List String,
      List.Sublist (ks.foldl (pervasiveStep dates origin) acc).1 acc.1 := by
  induction ks with
  | nil => intro acc; exact List.Sublist.refl _
  | cons k ks ih =>
    intro acc
    rw [List.foldl_cons]
    refine List.Sublist.trans (ih _) ?_
    rcases pervasiveStep_map dates origin acc k with hm | hm
    · rw [hm]
    · rw [hm]; exact alErase_sublist _ _

/-- The pervasive-fixed classifier on one origin: a path with full-coverage
history meeting the threshold is recorded as the exact url and removed. -/
theorem find_pervasive_origin_classified (dates : List String) (origin : String)
    (o : OriginMap) (pats : List String) (path : String) (hist : PathHist)
    (hnodup : (alKeys o).Nodup) (hget : alGet o path = some hist)
    (hlen : hist.length = dates.length)
    (hcheck : pervasiveCheck hist dates = true) :
    (origin ++ path) ∈ (find_pervasive_origin dates origin o pats).2 ∧
      alHas (find_pervasive_origin dates origin o pats).1 path = false := by
  have hmem : path ∈ alKeys o := alGet_mem_keys hget
  obtain ⟨l1, l2, hsplit⟩ := List.append_of_mem hmem
  have hnd : (l1 ++ path :: l2).Nodup := hsplit ▸ hnodup
  have hl1 : ∀ k ∈ l1, k ≠ path := by
    intro k hk
    intro hkp
    subst hkp
    rcases List.nodup_append.mp hnd with ⟨-, -, hdisj⟩
    exact hdisj hk (List.mem_cons_self _ _)
  have hl2 : ∀ k ∈ l2, k ≠ path := by
    intro k hk hkp
    subst hkp
    have := (List.nodup_append.mp hnd).2.1
    rcases List.nodup_cons.mp this with ⟨hnotin, -⟩
    exact hnotin hk
  unfold find_pervasive_origin
  rw [hsplit, List.foldl_append, List.foldl_cons]
  set acc1 := l1.foldl (pervasiveStep dates origin) (o, pats) with hacc1
  have hget1 : alGet acc1.1 path = some hist := by
    rw [hacc1, pervasiveFold_get_ne dates origin l1 path hl1]
    exact hget
  have hstep : pervasiveStep dates origin acc1 path =
      (alErase acc1.1 path,
        if acc1.2.contains (origin ++ path) = true then acc1.2
        else acc1.2 ++ [origin ++ path]) := by
    rw [pervasiveStep_some hget1, if_pos hlen, if_pos hcheck]
  rw [hstep]
  constructor
  · refine pervasiveFold_pats_mono dates origin l2 _ ?_
    by_cases hc : acc1.2.contains (origin ++ path) = true
    · rw [if_pos hc]
      exact List.mem_of_elem_eq_true hc
    · rw [if_neg hc]
      exact List.mem_append.mpr (Or.inr (List.mem_singleton.mpr rfl))
  · have hkeys1 : (alKeys acc1.1).Nodup := by
      refine List.Nodup.sublist ?_ hnodup
      exact List.Sublist.map Prod.fst (pervasiveFold_keys_sublist dates origin l1 _)
    have hnone : alGet (alErase acc1.1 path) path = none := by
      have h2 := alHas_erase_self acc1.1 path hkeys1
      unfold alHas at h2
      cases hx : alGet (alErase acc1.1 path) path with
      | none => rfl
      | some v =>
        rw [hx] at h2
        simp at h2
    have := pervasiveFold_get_none dates origin l2 path
      (alErase acc1.1 path,
        if acc1.2.contains (origin ++ path) = true then acc1.2
        else acc1.2 ++ [origin ++ path]) hnone
    unfold alHas
    rw [this]
    rfl

/-- The pervasive-fixed classifier on one origin: a path that misses the
threshold in some month keeps its history unchanged. -/
theorem find_pervasive_origin_kept (dates : List String) (origin : String)
    (o : OriginMap) (pats : List String) (path : String) (hist : PathHist)
    (hnodup : (alKeys o).Nodup) (hget : alGet o path = some hist)
    (hfail : ¬ (hist.length = dates.length ∧ pervasiveCheck hist dates = true)) :
    alGet (find_pervasive_origin dates origin o pats).1 path = some hist := by
  have hmem : path ∈ alKeys o := alGet_mem_keys hget
  obtain ⟨l1, l2, hsplit⟩ := List.append_of_mem hmem
  have hnd : (l1 ++ path :: l2).Nodup := hsplit ▸ hnodup
  have hl1 : ∀ k ∈ l1, k ≠ path := by
    intro k hk hkp
    subst hkp
    rcases List.nodup_append.mp hnd with ⟨-, -, hdisj⟩
    exact hdisj hk (List.mem_cons_self _ _)
  have hl2 : ∀ k ∈ l2, k ≠ path := by
    intro k hk hkp
    subst hkp
    have := (List.nodup_append.mp hnd).2.1
    rcases List.nodup_cons.mp this with ⟨hnotin, -⟩
    exact hnotin hk
  unfold find_pervasive_origin
  rw [hsplit, List.foldl_append, List.foldl_cons]
  set acc1 := l1.foldl (pervasiveStep dates origin) (o, pats) with hacc1
  have hget1 : alGet acc1.1 path = some hist := by
    rw [hacc1, pervasiveFold_get_ne dates origin l1 path hl1]
    exact hget
  have hstep : (pervasiveStep dates origin acc1 path).1 = acc1.1 := by
    rw [pervasiveStep_some hget1]
    by_cases h1 : hist.length = dates.length
    · rw [if_pos h1]
      have h2 : pervasiveCheck hist dates ≠ true := fun hc => hfail ⟨h1, hc⟩
      rw [if_neg h2]
    · rw [if_neg h1]
  have hrest := pervasiveFold_get_ne dates origin l2 path hl2
    (pervasiveStep dates origin acc1 path)
  rw [hrest, hstep, hget1]

/-- One origin step of `find_pervasive_urls`. -/
def fpuStep (dates : List String) (acc : Index × List String) (origin : String) :
    Index × List String :=
  match alGet acc.1 origin with
  | none => acc
  | some o =>
    let r := find_pervasive_origin dates origin o acc.2
    (alSet acc.1 origin r.1, r.2)

theorem find_pervasive_urls_eq_fold (dates : List String) (idx : Index)
    (pats : List String) :
    find_pervasive_urls dates idx pats =
      (alKeys idx).foldl (fpuStep dates) (idx, pats) := by
  unfold find_pervasive_urls fpuStep
  rfl

theorem fpuStep_none {dates : List String} {acc : Index × List String}
    {origin : String} (h : alGet acc.1 origin = none) :
    fpuStep dates acc origin = acc := by
  unfold fpuStep
  rw [h]

theorem fpuStep_some {dates : List String} {acc : Index × List String}
    {origin : String} {o : OriginMap} (h : alGet acc.1 origin = some o) :
    fpuStep dates acc origin =
      (alSet acc.1 origin (find_pervasive_origin dates origin o acc.2).1,
        (find_pervasive_origin dates origin o acc.2).2) := by
  unfold fpuStep
  rw [h]

theorem find_pervasive_origin_pats_mono (dates : List String) (origin : String)
    (o : OriginMap) (pats : List String) {u : String} (h : u ∈ pats) :
    u ∈ (find_pervasive_origin dates origin o pats).2 :=
  pervasiveFold_pats_mono dates origin (alKeys o) (o, pats) h

theorem fpuStep_pats_mono (dates : List String) (acc : Index × List String)
    (origin : String) {u : String} (h : u ∈ acc.2) :
    u ∈ (fpuStep dates acc origin).2 := by
  cases hg : alGet acc.1 origin with
  | none => rw [fpuStep_none hg]; exact h
  | some o =>
    rw [fpuStep_some hg]
    exact find_pervasive_origin_pats_mono dates origin o acc.2 h

theorem fpuFold_pats_mono (dates : List String) (ks : List String) :
    ∀ (acc : Index × List String) {u : String}, u ∈ acc.2 →
      u ∈ (ks.foldl (fpuStep dates) acc).2 := by
  induction ks with
  | nil => intro acc u h; exact h
  | cons k ks ih =>
    intro acc u h
    exact ih _ (fpuStep_pats_mono dates acc k h)

theorem fpuFold_get_ne (dates : List String) (ks : List String) (origin : String)
    (hk : ∀ k ∈ ks, k ≠ origin) :
    ∀ acc : Index × List String,
      alGet (ks.foldl (fpuStep dates) acc).1 origin = alGet acc.1 origin := by
  induction ks with
  | nil => intro acc; rfl
  | cons k ks ih =>
    intro acc
    rw [List.foldl_cons, ih (fun x hx => hk x (List.mem_cons_of_mem _ hx))]
    cases hg : alGet acc.1 k with
    | none => rw [fpuStep_none hg]
    | some o =>
      rw [fpuStep_some hg]
      exact alGet_set_ne _ _ _ _ (hk k (List.mem_cons_self _ _))

/-- Claim C2: for an origin and path of the index whose history covers every
tracked month, `find_pervasive_urls` accepts the exact origin-qualified url
and removes the path when every month's summed occurrence count reaches
`PERVASIVE_COUNT`; a path below the threshold in some month keeps its
history unchanged for the later stages.  (The entry-per-month and nodup
hypotheses make the claim's coverage condition coincide with the source's
`len(...) == len(self.dates)` test.) -/
theorem claim_C2 (dates : List String) (idx : Index) (pats0 : List String)
    (origin : String) (omap : OriginMap) (path : String) (hist : PathHist)
    (hidx : (alKeys idx).Nodup) (homap : (alKeys omap).Nodup)
    (hgo : alGet idx origin = some omap) (hgp : alGet omap path = some hist)
    (hkeys : ∀ k ∈ alKeys hist, k ∈ dates) (hhn : (alKeys hist).Nodup)
    (hdn : dates.Nodup) (hall : ∀ d ∈ dates, (alGet hist d).isSome = true) :
    ((∀ d ∈ dates, PERVASIVE_COUNT ≤ monthTotal hist d) →
      (origin ++ path) ∈ (find_pervasive_urls dates idx pats0).2 ∧
      ∃ omap', alGet (find_pervasive_urls dates idx pats0).1 origin = some omap' ∧
        alHas omap' path = false) ∧
    ((∃ d ∈ dates, monthTotal hist d < PERVASIVE_COUNT) →
      ∃ omap', alGet (find_pervasive_urls dates idx pats0).1 origin = some omap' ∧
        alGet omap' path = some hist) := by
  -- the source's coverage test `len(hist) == len(dates)` holds
  have hmemkeys : ∀ d ∈ dates, d ∈ alKeys hist := by
    intro d hd
    have hs := hall d hd
    cases hx : alGet hist d with
    | none => rw [hx] at hs; simp at hs
    | some v => exact alGet_mem_keys hx
  have hle1 : (alKeys hist).length ≤ dates.length :=
    (hhn.subperm (fun a ha => hkeys a ha)).length_le
  have hle2 : dates.length ≤ (alKeys hist).length :=
    (hdn.subperm (fun a ha => hmemkeys a ha)).length_le
  have hlen : hist.length = dates.length := by
    have hm : (alKeys hist).length = hist.length := List.length_map _ _
    omega
  -- split the origin iteration around our origin
  have homem : origin ∈ alKeys idx := alGet_mem_keys hgo
  obtain ⟨l1, l2, hsplit⟩ := List.append_of_mem homem
  have hnd : (l1 ++ origin :: l2).Nodup := hsplit ▸ hidx
  have hl1 : ∀ k ∈ l1, k ≠ origin := by
    intro k hk hkp
    subst hkp
    rcases List.nodup_append.mp hnd with ⟨-, -, hdisj⟩
    exact hdisj hk (List.mem_cons_self _ _)
  have hl2 : ∀ k ∈ l2, k ≠ origin := by
    intro k hk hkp
    subst hkp
    have := (List.nodup_append.mp hnd).2.1
    rcases List.nodup_cons.mp this with ⟨hnotin, -⟩
    exact hnotin hk
  rw [find_pervasive_urls_eq_fold, hsplit, List.foldl_append, List.foldl_cons]
  set acc1 := l1.foldl (fpuStep dates) (idx, pats0) with hacc1
  have hget1 : alGet acc1.1 origin = some omap := by
    rw [hacc1, fpuFold_get_ne dates l1 origin hl1]
    exact hgo
  rw [fpuStep_some hget1]
  set r := find_pervasive_origin dates origin omap acc1.2 with hr
  have hidxget : alGet (l2.foldl (fpuStep dates)
      (alSet acc1.1 origin r.1, r.2)).1 origin = some r.1 := by
    rw [fpuFold_get_ne dates l2 origin hl2]
    exact alGet_set_self _ _ _
  constructor
  · intro hthr
    have hcheck : pervasiveCheck hist dates = true :=
      (pervasiveCheck_iff hist dates).mpr hthr
    have hcls := find_pervasive_origin_classified dates origin omap acc1.2 path
      hist homap hgp hlen hcheck
    refine ⟨?_, r.1, hidxget, ?_⟩
    · exact fpuFold_pats_mono dates l2 _ (hr ▸ hcls.1)
    · exact hr ▸ hcls.2
  · intro hfail
    have hcheck : pervasiveCheck hist dates = false := by
      rcases hfail with ⟨d, hd, hlt⟩
      cases hc : pervasiveCheck hist dates with
      | false => rfl
      | true =>
        have := (pervasiveCheck_iff hist dates).mp hc d hd
        omega
    have hkept := find_pervasive_origin_kept dates origin omap acc1.2 path hist
      homap hgp (by
        intro hcontra
        rw [hcontra.2] at hcheck
        cases hcheck)
    exact ⟨r.1, hidxget, hr ▸ hkept⟩

def scen2hist : PathHist :=
  [("2025-10", [("h1", { count := 100001, size := 500 })]),
   ("2025-09", [("h1", { count := 100001, size := 500 })])]

def scen2idx : Index := [("https://w.com", [("/app.js", scen2hist)])]

theorem claim_C2_witness :
    ("https://w.com" ++ "/app.js") ∈
      (find_pervasive_urls ["2025-10", "2025-09"] scen2idx []).2 ∧
    ∃ omap', alGet (find_pervasive_urls ["2025-10", "2025-09"] scen2idx []).1
        ("https://w.com") = some omap' ∧ alHas omap' ("/app.js") = false :=
  (claim_C2 ["2025-10", "2025-09"] scen2idx [] ("https://w.com")
    [("/app.js", scen2hist)] ("/app.js") scen2hist
    (by decide) (by decide) (by decide) (by decide)
    (by decide) (by decide) (by decide) (by decide)).1 (by decide)

/-! ## Claim C6: validated patterns consume their matching paths -/

theorem alGet_isSome_of_mem_keys {v : Type} {m : List (String × v)} {k : String}
    (h : k ∈ alKeys m) : (alGet m k).isSome = true := by
  induction m with
  | nil => simp [alKeys] at h
  | cons e m ih =>
    obtain ⟨a, y⟩ := e
    rw [alGet]
    by_cases he : a = k
    · rw [if_pos he]; rfl
    · rw [if_neg he]
      refine ih ?_
      simp only [alKeys, List.map_cons, List.mem_cons] at h
      rcases h with h | h
      · exact absurd h.symm he
      · exact h

theorem validateDateFold_ok {pat d : String} {st st' : List String × Nat}
    {entry : String × PathHist}
    (h : validateDateFold pat d st entry = Except.ok st') :
    (url_matches_pattern entry.1 pat = true ∧ st'.1 = st.1 ++ [entry.1]) ∨
      (url_matches_pattern entry.1 pat = false ∧ st'.1 = st.1) := by
  unfold validateDateFold at h
  by_cases hm : url_matches_pattern entry.1 pat = true
  · rw [if_pos hm] at h
    cases hg : alGet entry.2 d with
    | none =>
      rw [hg] at h
      simp only [exceptBind_ok] at h
      cases h
      exact Or.inl ⟨hm, rfl⟩
    | some htab =>
      rw [hg] at h
      cases htab with
      | nil =>
        simp only [exceptBind_error] at h
        cases h
      | cons e rest =>
        simp only [exceptBind_ok] at h
        cases h
        exact Or.inl ⟨hm, rfl⟩
  · rw [if_neg hm] at h
    cases h
    exact Or.inr ⟨Bool.not_eq_true _ ▸ Bool.of_not_eq_true hm, rfl⟩

theorem validateInner_mono {pat d : String} {o : OriginMap} :
    ∀ {init r : List String × Nat},
      o.foldlM (validateDateFold pat d) init = Except.ok r →
      ∀ x ∈ init.1, x ∈ r.1 := by
  induction o with
  | nil =>
    intro init r h x hx
    cases h
    exact hx
  | cons entry o ih =>
    intro init r h x hx
    rw [List.foldlM_cons] at h
    cases hstep : validateDateFold pat d init entry with
    | error msg => rw [hstep] at h; simp only [exceptBind_error] at h; cases h
    | ok st1 =>
      rw [hstep] at h
      simp only [exceptBind_ok] at h
      refine ih h x ?_
      rcases validateDateFold_ok hstep with ⟨-, heq⟩ | ⟨-, heq⟩
      · rw [heq]; exact List.mem_append.mpr (Or.inl hx)
      · rw [heq]; exact hx

theorem validateInner_collect {pat d : String} {o : OriginMap} :
    ∀ {init r : List String × Nat},
      o.foldlM (validateDateFold pat d) init = Except.ok r →
      ∀ entry ∈ o, url_matches_pattern entry.1 pat = true → entry.1 ∈ r.1 := by
  induction o with
  | nil =>
    intro init r h entry he
    simp at he
  | cons e o ih =>
    intro init r h entry he hm
    rw [List.foldlM_cons] at h
    cases hstep : validateDateFold pat d init e with
    | error msg => rw [hstep] at h; simp only [exceptBind_error] at h; cases h
    | ok st1 =>
      rw [hstep] at h
      simp only [exceptBind_ok] at h
      rcases List.mem_cons.mp he with rfl | he
      · rcases validateDateFold_ok hstep with ⟨-, heq⟩ | ⟨hnm, -⟩
        · refine validateInner_mono h entry.1 ?_
          rw [heq]
          exact List.mem_append.mpr (Or.inr (List.mem_singleton.mpr rfl))
        · rw [hm] at hnm
          cases hnm
      · exact ih h entry he hm

theorem validateInner_keys {pat d : String} {o : OriginMap} :
    ∀ {init r : List String × Nat},
      o.foldlM (validateDateFold pat d) init = Except.ok r →
      ∀ x ∈ r.1, x ∈ init.1 ∨ x ∈ alKeys o := by
  induction o with
  | nil =>
    intro init r h x hx
    cases h
    exact Or.inl hx
  | cons e o ih =>
    intro init r h x hx
    rw [List.foldlM_cons] at h
    cases hstep : validateDateFold pat d init e with
    | error msg => rw [hstep] at h; simp only [exceptBind_error] at h; cases h
    | ok st1 =>
      rw [hstep] at h
      simp only [exceptBind_ok] at h
      rcases ih h x hx with hx1 | hx1
      · rcases validateDateFold_ok hstep with ⟨-, heq⟩ | ⟨-, heq⟩
        · rw [heq] at hx1
          rcases List.mem_append.mp hx1 with hx2 | hx2
          · exact Or.inl hx2
          · rcases List.mem_singleton.mp hx2 with rfl
            exact Or.inr (List.mem_map.mpr ⟨e, List.mem_cons_self _ _, rfl⟩)
        · rw [heq] at hx1
          exact Or.inl hx1
      · exact Or.inr (by
          simp only [alKeys, List.map_cons, List.mem_cons]
          exact Or.inr hx1)

theorem validateOuter_mono {o : OriginMap} {pat : String} :
    ∀ {ds : List String} {init v : List String × Bool},
      ds.foldlM (fun st d => do
          let r ← o.foldlM (validateDateFold pat d) (st.1, 0)
          Except.ok (r.1, st.2 && decide (r.2 ≥ PERVASIVE_COUNT))) init =
        Except.ok v →
      ∀ x ∈ init.1, x ∈ v.1 := by
  intro ds
  induction ds with
  | nil =>
    intro init v h x hx
    cases h
    exact hx
  | cons d ds ih =>
    intro init v h x hx
    rw [List.foldlM_cons] at h
    cases hin : o.foldlM (validateDateFold pat d) (init.1, 0) with
    | error msg => rw [hin] at h; simp only [exceptBind_error] at h; cases h
    | ok r =>
      rw [hin] at h
      simp only [exceptBind_ok] at h
      exact ih h x (validateInner_mono hin x hx)

theorem validateOuter_keys {o : OriginMap} {pat : String} :
    ∀ {ds : List String} {init v : List String × Bool},
      ds.foldlM (fun st d => do
          let r ← o.foldlM (validateDateFold pat d) (st.1, 0)
          Except.ok (r.1, st.2 && decide (r.2 ≥ PERVASIVE_COUNT))) init =
        Except.ok v →
      (∀ x ∈ init.1, x ∈ alKeys o) → ∀ x ∈ v.1, x ∈ alKeys o := by
  intro ds
  induction ds with
  | nil =>
    intro init v h hinit x hx
    cases h
    exact hinit x hx
  | cons d ds ih =>
    intro init v h hinit x hx
    rw [List.foldlM_cons] at h
    cases hin : o.foldlM (validateDateFold pat d) (init.1, 0) with
    | error msg => rw [hin] at h; simp only [exceptBind_error] at h; cases h
    | ok r =>
      rw [hin] at h
      simp only [exceptBind_ok] at h
      refine ih h ?_ x hx
      intro y hy
      rcases validateInner_keys hin y hy with hy1 | hy1
      · exact hinit y hy1
      · exact hy1

theorem validateDates_collect {o : OriginMap} {pat : String} {dates : List String}
    {v : List String × Bool} (hok : validateDates o pat dates = Except.ok v)
    (hd : dates ≠ []) :
    ∀ entry ∈ o, url_matches_pattern entry.1 pat = true → entry.1 ∈ v.1 := by
  unfold validateDates at hok
  cases dates with
  | nil => exact absurd rfl hd
  | cons d ds =>
    rw [List.foldlM_cons] at hok
    cases hin : o.foldlM (validateDateFold pat d) (([] : List String), 0) with
    | error msg =>
      rw [hin] at hok
      simp only [exceptBind_error] at hok
      cases hok
    | ok r =>
      rw [hin] at hok
      simp only [exceptBind_ok] at hok
      intro entry he hm
      exact validateOuter_mono hok entry.1 (validateInner_collect hin entry he hm)

theorem validateDates_keys {o : OriginMap} {pat : String} {dates : List String}
    {v : List String × Bool} (hok : validateDates o pat dates = Except.ok v) :
    ∀ x ∈ v.1, x ∈ alKeys o := by
  unfold validateDates at hok
  exact validateOuter_keys hok (by simp)

theorem removeMatched_sublist (o : OriginMap) (matched : List String) :
    List.Sublist (removeMatched o matched) o := by
  unfold removeMatched
  induction matched generalizing o with
  | nil => exact List.Sublist.refl _
  | cons p matched ih =>
    rw [List.foldl_cons]
    refine List.Sublist.trans (ih _) ?_
    by_cases hp : alHas o p = true
    · rw [if_pos hp]
      exact alErase_sublist _ _
    · rw [if_neg hp]

theorem removeMatched_absent (o : OriginMap) (matched : List String)
    {p : String} (habs : alGet o p = none) :
    alGet (removeMatched o matched) p = none := by
  unfold removeMatched
  induction matched generalizing o with
  | nil => exact habs
  | cons q matched ih =>
    rw [List.foldl_cons]
    by_cases hq : alHas o q = true
    · rw [if_pos hq]
      exact ih _ (alGet_erase_none _ _ _ habs)
    · rw [if_neg hq]
      exact ih _ habs

theorem removeMatched_removes (o : OriginMap) (matched : List String)
    (hnodup : (alKeys o).Nodup) {p : String} (hp : p ∈ matched) :
    alGet (removeMatched o matched) p = none := by
  obtain ⟨m1, m2, hsplit⟩ := List.append_of_mem hp
  subst hsplit
  unfold removeMatched
  rw [List.foldl_append, List.foldl_cons]
  set o1 := m1.foldl (fun o p2 => if alHas o p2 = true then alErase o p2 else o) o
    with ho1
  have hsub : List.Sublist o1 o := by
    rw [ho1]
    exact removeMatched_sublist o m1
  have hnd1 : (alKeys o1).Nodup := List.Nodup.sublist (List.Sublist.map _ hsub) hnodup
  have habs : alGet (if alHas o1 p = true then alErase o1 p else o1) p = none := by
    by_cases hh : alHas o1 p = true
    · rw [if_pos hh]
      have := alHas_erase_self o1 p hnd1
      unfold alHas at this
      cases hx : alGet (alErase o1 p) p with
      | none => rfl
      | some v => rw [hx] at this; simp at this
    · rw [if_neg hh]
      unfold alHas at hh
      cases hx : alGet o1 p with
      | none => rfl
      | some v => rw [hx] at hh; simp at hh
  exact removeMatched_absent _ m2 habs

/-- Claim C6: after a pattern is validated, every working-set path whose
text matches the pattern has been removed, regardless of acceptance; any
validation performed later, on any working set descended (by deletions)
from the cleaned one, collects a set of paths disjoint from the first
pattern's. -/
theorem claim_C6 (dates : List String) (o : OriginMap) (pat : String)
    (v : List String × Bool) (hd : dates ≠ [])
    (hnodup : (alKeys o).Nodup)
    (hok : validateDates o pat dates = Except.ok v) :
    (∀ p ∈ alKeys (removeMatched o v.1), url_matches_pattern p pat = false) ∧
    (∀ (o2 : OriginMap) (pat2 : String) (v2 : List String × Bool),
      List.Sublist o2 (removeMatched o v.1) →
      validateDates o2 pat2 dates = Except.ok v2 →
      ∀ x ∈ v2.1, x ∉ v.1) := by
  have hremoved : ∀ p ∈ alKeys (removeMatched o v.1), p ∉ v.1 := by
    intro p hpk hpv
    have hnone := removeMatched_removes o v.1 hnodup hpv
    have hsome := alGet_isSome_of_mem_keys hpk
    rw [hnone] at hsome
    cases hsome
  constructor
  · intro p hpk
    cases hm : url_matches_pattern p pat with
    | false => rfl
    | true =>
      exfalso
      -- p is a key of the cleaned set, hence of o, and it matches the pattern,
      -- so validation collected it
      have hpo : p ∈ alKeys o := by
        have := List.Sublist.map Prod.fst (removeMatched_sublist o v.1)
        exact List.Sublist.mem hpk this
      have hsome := alGet_isSome_of_mem_keys hpo
      cases hx : alGet o p with
      | none => rw [hx] at hsome; cases hsome
      | some hist =>
        have hmem : (p, hist) ∈ o := alGet_mem hx
        have : p ∈ v.1 := validateDates_collect hok hd (p, hist) hmem hm
        exact hremoved p hpk this
  · intro o2 pat2 v2 hsub hok2 x hx
    have hxk : x ∈ alKeys o2 := validateDates_keys hok2 x hx
    have hxk2 : x ∈ alKeys (removeMatched o v.1) :=
      List.Sublist.mem hxk (List.Sublist.map Prod.fst hsub)
    exact hremoved x hxk2

def scen6o : OriginMap :=
  [("/v/1/app.js", [("2025-10", [("h1", { count := 60000, size := 100 })])]),
   ("/v/2/app.js", [("2025-10", [("h2", { count := 60000, size := 100 })])]),
   ("/other.css", [("2025-10", [("h3", { count := 70000, size := 200 })])])]

theorem claim_C6_witness :
    (∀ p ∈ alKeys (removeMatched scen6o
        (validateDates scen6o ("/v/*/app.js") ["2025-10"]).toOption.get!.1),
      url_matches_pattern p ("/v/*/app.js") = false) ∧
    ["2025-10"] ≠ ([] : List String) := by
  refine ⟨?_, by decide⟩
  have hok : validateDates scen6o ("/v/*/app.js") ["2025-10"] =
      Except.ok (["/v/1/app.js", "/v/2/app.js"], true) := by decide
  have := (claim_C6 ["2025-10"] scen6o ("/v/*/app.js")
    (["/v/1/app.js", "/v/2/app.js"], true) (by decide) (by decide) hok).1
  intro p hp
  refine this p ?_
  have hopt : (validateDates scen6o ("/v/*/app.js")
      ["2025-10"]).toOption.get!.1 = ["/v/1/app.js", "/v/2/app.js"] := by
    rw [hok]
    rfl
  rw [hopt] at hp
  exact hp

/-! ## Claims C7 and C10: `remove_duplicate_patterns` -/

theorem removeFirst_sublist {xs pats2 : List String} {y : String} :
    removeFirst xs y = some pats2 → List.Sublist pats2 xs := by
  induction xs generalizing pats2 with
  | nil => intro h; cases h
  | cons x xs ih =>
    intro h
    rw [removeFirst] at h
    by_cases hx : x = y
    · rw [if_pos hx] at h
      injection h with h2
      subst h2
      exact List.sublist_cons_self x xs
    · rw [if_neg hx] at h
      cases hr : removeFirst xs y with
      | none => rw [hr] at h; cases h
      | some t =>
        rw [hr] at h
        simp only [Option.map_some', Option.some.injEq] at h
        subst h
        exact List.Sublist.cons₂ x (ih hr)

theorem removeFirst_count_self {xs pats2 : List String} {y : String} :
    removeFirst xs y = some pats2 → pats2.count y + 1 = xs.count y := by
  induction xs generalizing pats2 with
  | nil => intro h; cases h
  | cons x xs ih =>
    intro h
    rw [removeFirst] at h
    by_cases hx : x = y
    · rw [if_pos hx] at h
      injection h with h2
      subst h2
      subst hx
      simp [List.count_cons]
    · rw [if_neg hx] at h
      cases hr : removeFirst xs y with
      | none => rw [hr] at h; cases h
      | some t =>
        rw [hr] at h
        simp only [Option.map_some', Option.some.injEq] at h
        subst h
        have := ih hr
        simp [List.count_cons, hx]
        omega

theorem removeFirst_count_ne {xs pats2 : List String} {y z : String}
    (hz : y ≠ z) : removeFirst xs y = some pats2 → pats2.count z = xs.count z := by
  induction xs generalizing pats2 with
  | nil => intro h; cases h
  | cons x xs ih =>
    intro h
    rw [removeFirst] at h
    by_cases hx : x = y
    · rw [if_pos hx] at h
      injection h with h2
      subst h2
      subst hx
      simp [List.count_cons, hz]
    · rw [if_neg hx] at h
      cases hr : removeFirst xs y with
      | none => rw [hr] at h; cases h
      | some t =>
        rw [hr] at h
        simp only [Option.map_some', Option.some.injEq] at h
        subst h
        simp [List.count_cons, ih hr]

theorem dedupInner_nil (p1 : String) (pats : List String) :
    dedupInner p1 [] pats = Except.ok pats := rfl

theorem dedupInner_cons (p1 p2 : String) (rest pats : List String) :
    dedupInner p1 (p2 :: rest) pats =
      if p1 ≠ p2 ∧ p1.length ≠ p2.length then
        if url_matches_pattern (if p1.length > p2.length then p1 else p2)
            (if p1.length < p2.length then p1 else p2) then
          match removeFirst pats (if p1.length > p2.length then p1 else p2) with
          | none => Except.error ("ValueError")
          | some pats2 => dedupInner p1 rest pats2
        else dedupInner p1 rest pats
      else dedupInner p1 rest pats := rfl

theorem dedupInner_ok_sublist {p1 : String} {snap : List String} :
    ∀ {pats pats2 : List String}, dedupInner p1 snap pats = Except.ok pats2 →
      List.Sublist pats2 pats := by
  induction snap with
  | nil =>
    intro pats pats2 h
    rw [dedupInner_nil] at h
    injection h with h2
    subst h2
    exact List.Sublist.refl _
  | cons q rest ih =>
    intro pats pats2 h
    rw [dedupInner_cons] at h
    by_cases hc : p1 ≠ q ∧ p1.length ≠ q.length
    · rw [if_pos hc] at h
      by_cases hmq : url_matches_pattern (if p1.length > q.length then p1 else q)
          (if p1.length < q.length then p1 else q) = true
      · rw [if_pos hmq] at h
        cases hr : removeFirst pats (if p1.length > q.length then p1 else q) with
        | none => rw [hr] at h; cases h
        | some pm =>
          rw [hr] at h
          exact List.Sublist.trans (ih h) (removeFirst_sublist hr)
      · rw [if_neg hmq] at h
        exact ih h
    · rw [if_neg hc] at h
      exact ih h

theorem dedupInner_error_msg {p1 : String} {snap : List String} :
    ∀ {pats : List String} {e : String},
      dedupInner p1 snap pats = Except.error e → e = "ValueError" := by
  induction snap with
  | nil =>
    intro pats e h
    rw [dedupInner_nil] at h
    cases h
  | cons q rest ih =>
    intro pats e h
    rw [dedupInner_cons] at h
    by_cases hc : p1 ≠ q ∧ p1.length ≠ q.length
    · rw [if_pos hc] at h
      by_cases hmq : url_matches_pattern (if p1.length > q.length then p1 else q)
          (if p1.length < q.length then p1 else q) = true
      · rw [if_pos hmq] at h
        cases hr : removeFirst pats (if p1.length > q.length then p1 else q) with
        | none =>
          rw [hr] at h
          injection h with h2
          exact h2.symm
        | some pm =>
          rw [hr] at h
          exact ih h
      · rw [if_neg hmq] at h
        exact ih h
    · rw [if_neg hc] at h
      exact ih h

theorem dedupOuter_nil (pats : List String) :
    dedupOuter [] pats = Except.ok pats := rfl

theorem dedupOuter_cons (p1 : String) (rest pats : List String) :
    dedupOuter (p1 :: rest) pats =
      dedupInner p1 pats pats >>= fun pats2 => dedupOuter rest pats2 := rfl

theorem dedupOuter_ok_sublist {outs : List String} :
    ∀ {pats final : List String}, dedupOuter outs pats = Except.ok final →
      List.Sublist final pats := by
  induction outs with
  | nil =>
    intro pats final h
    rw [dedupOuter_nil] at h
    injection h with h2
    subst h2
    exact List.Sublist.refl _
  | cons p1 rest ih =>
    intro pats final h
    rw [dedupOuter_cons] at h
    cases hin : dedupInner p1 pats pats with
    | error m => rw [hin] at h; simp only [exceptBind_error] at h; cases h
    | ok pats1 =>
      rw [hin] at h
      simp only [exceptBind_ok] at h
      exact List.Sublist.trans (ih h) (dedupInner_ok_sublist hin)

theorem dedupOuter_error_msg {outs : List String} :
    ∀ {pats : List String} {e : String},
      dedupOuter outs pats = Except.error e → e = "ValueError" := by
  induction outs with
  | nil =>
    intro pats e h
    rw [dedupOuter_nil] at h
    cases h
  | cons p1 rest ih =>
    intro pats e h
    rw [dedupOuter_cons] at h
    cases hin : dedupInner p1 pats pats with
    | error m =>
      rw [hin] at h
      simp only [exceptBind_error] at h
      injection h with h2
      subst h2
      exact dedupInner_error_msg hin
    | ok pats1 =>
      rw [hin] at h
      simp only [exceptBind_ok] at h
      exact ih h

theorem dedupOuter_append (xs ys : List String) :
    ∀ (pats : List String),
      dedupOuter (xs ++ ys) pats =
        dedupOuter xs pats >>= fun p => dedupOuter ys p := by
  induction xs with
  | nil => intro pats; rfl
  | cons x xs ih =>
    intro pats
    rw [List.cons_append, dedupOuter_cons, dedupOuter_cons]
    cases hin : dedupInner x pats pats with
    | error m => rfl
    | ok p1 =>
      simp only [exceptBind_ok]
      exact ih p1

theorem dedupInner_decrease {p1 p2 lng : String}
    (hne : p1 ≠ p2) (hlen : p1.length ≠ p2.length)
    (hlng : lng = if p1.length > p2.length then p1 else p2)
    (hm : url_matches_pattern lng (if p1.length < p2.length then p1 else p2) = true) :
    ∀ {snap : List String}, p2 ∈ snap →
      ∀ {pats pats2 : List String}, dedupInner p1 snap pats = Except.ok pats2 →
      pats2.count lng < pats.count lng := by
  intro snap
  induction snap with
  | nil => intro hp2; exact absurd hp2 (List.not_mem_nil p2)
  | cons q rest ih =>
    intro hp2 pats pats2 h
    rw [dedupInner_cons] at h
    rcases List.mem_cons.mp hp2 with rfl | hp2r
    · rw [if_pos ⟨hne, hlen⟩, ← hlng, if_pos hm] at h
      cases hr : removeFirst pats lng with
      | none => rw [hr] at h; cases h
      | some pm =>
        rw [hr] at h
        have h1 := removeFirst_count_self hr
        have h2 := List.Sublist.count_le (dedupInner_ok_sublist h) lng
        omega
    · by_cases hc : p1 ≠ q ∧ p1.length ≠ q.length
      · rw [if_pos hc] at h
        by_cases hmq : url_matches_pattern (if p1.length > q.length then p1 else q)
            (if p1.length < q.length then p1 else q) = true
        · rw [if_pos hmq] at h
          cases hr : removeFirst pats (if p1.length > q.length then p1 else q) with
          | none => rw [hr] at h; cases h
          | some pm =>
            rw [hr] at h
            have h1 := ih hp2r h
            have h2 := List.Sublist.count_le (removeFirst_sublist hr) lng
            omega
        · rw [if_neg hmq] at h
          exact ih hp2r h
      · rw [if_neg hc] at h
        exact ih hp2r h

theorem dedupInner_preserve {ps : List String} {X p1 : String}
    (H : ∀ W ∈ ps, W.length < X.length → url_matches_pattern X W = false)
    (hp1 : p1 ∈ ps) :
    ∀ {snap : List String}, (∀ q ∈ snap, q ∈ ps) →
      ∀ {pats pats2 : List String}, dedupInner p1 snap pats = Except.ok pats2 →
      pats2.count X = pats.count X := by
  intro snap
  induction snap with
  | nil =>
    intro _ pats pats2 h
    rw [dedupInner_nil] at h
    injection h with h2
    subst h2
    rfl
  | cons q rest ih =>
    intro hsnap pats pats2 h
    have hrest : ∀ q2 ∈ rest, q2 ∈ ps := fun q2 hq2 =>
      hsnap q2 (List.mem_cons_of_mem q hq2)
    rw [dedupInner_cons] at h
    by_cases hc : p1 ≠ q ∧ p1.length ≠ q.length
    · rw [if_pos hc] at h
      by_cases hmq : url_matches_pattern (if p1.length > q.length then p1 else q)
          (if p1.length < q.length then p1 else q) = true
      · rw [if_pos hmq] at h
        cases hr : removeFirst pats (if p1.length > q.length then p1 else q) with
        | none => rw [hr] at h; cases h
        | some pm =>
          rw [hr] at h
          have hshrlen : (if p1.length < q.length then p1 else q).length <
              (if p1.length > q.length then p1 else q).length := by
            by_cases hgt : p1.length > q.length
            · rw [if_pos hgt, if_neg (by omega : ¬ p1.length < q.length)]
              exact hgt
            · have hlt : p1.length < q.length := by
                rcases Nat.lt_or_ge p1.length q.length with h1 | h1
                · exact h1
                · exact absurd (Nat.le_antisymm (Nat.le_of_not_lt hgt) h1) hc.2
              rw [if_neg hgt, if_pos hlt]
              exact hlt
          have hshrmem : (if p1.length < q.length then p1 else q) ∈ ps := by
            by_cases hlt : p1.length < q.length
            · rw [if_pos hlt]; exact hp1
            · rw [if_neg hlt]; exact hsnap q (List.mem_cons_self q rest)
          have hXne : (if p1.length > q.length then p1 else q) ≠ X := by
            intro hEq
            rw [hEq] at hshrlen hmq
            rw [H _ hshrmem hshrlen] at hmq
            cases hmq
          rw [ih hrest h, removeFirst_count_ne hXne hr]
      · rw [if_neg hmq] at h
        exact ih hrest h
    · rw [if_neg hc] at h
      exact ih hrest h

theorem dedupOuter_preserve {ps : List String} {X : String}
    (H : ∀ W ∈ ps, W.length < X.length → url_matches_pattern X W = false) :
    ∀ {outs : List String}, (∀ q ∈ outs, q ∈ ps) →
      ∀ {pats final : List String}, (∀ x ∈ pats, x ∈ ps) →
      dedupOuter outs pats = Except.ok final →
      final.count X = pats.count X := by
  intro outs
  induction outs with
  | nil =>
    intro _ pats final _ h
    rw [dedupOuter_nil] at h
    injection h with h2
    subst h2
    rfl
  | cons p1 rest ih =>
    intro houts pats final hpats h
    rw [dedupOuter_cons] at h
    cases hin : dedupInner p1 pats pats with
    | error m => rw [hin] at h; simp only [exceptBind_error] at h; cases h
    | ok pats1 =>
      rw [hin] at h
      simp only [exceptBind_ok] at h
      have hp1 : p1 ∈ ps := houts p1 (List.mem_cons_self p1 rest)
      have hpats1 : ∀ x ∈ pats1, x ∈ ps := fun x hx =>
        hpats x (List.Sublist.mem hx (dedupInner_ok_sublist hin))
      rw [ih (fun q hq => houts q (List.mem_cons_of_mem p1 hq)) hpats1 h,
        dedupInner_preserve H hp1 hpats hin]

theorem dedupOuter_count {X L2 : String}
    (hm : url_matches_pattern L2 X = true) (hlen : X.length < L2.length) :
    ∀ {outs pats final : List String},
      dedupOuter outs pats = Except.ok final → X ∈ final →
      final.count L2 + outs.count L2 ≤ pats.count L2 := by
  intro outs
  induction outs with
  | nil =>
    intro pats final h hX
    rw [dedupOuter_nil] at h
    injection h with h2
    subst h2
    simp
  | cons p1 rest ih =>
    intro pats final h hX
    rw [dedupOuter_cons] at h
    cases hin : dedupInner p1 pats pats with
    | error m => rw [hin] at h; simp only [exceptBind_error] at h; cases h
    | ok pats1 =>
      rw [hin] at h
      simp only [exceptBind_ok] at h
      have hrest := ih h hX
      by_cases hp1L : p1 = L2
      · subst hp1L
        have hXpats : X ∈ pats :=
          List.Sublist.mem (List.Sublist.mem hX (dedupOuter_ok_sublist h))
            (dedupInner_ok_sublist hin)
        have hne : p1 ≠ X := fun hEq => by rw [hEq] at hlen; omega
        have hdec := dedupInner_decrease hne (by omega)
          (by rw [if_pos (show p1.length > X.length by omega)])
          (by rw [if_neg (show ¬ p1.length < X.length by omega)]; exact hm)
          hXpats hin
        have hcc : (p1 :: rest).count p1 = rest.count p1 + 1 := by
          simp [List.count_cons]
        omega
      · have hle := List.Sublist.count_le (dedupInner_ok_sublist hin) L2
        have hcc : (p1 :: rest).count L2 = rest.count L2 := by
          simp [List.count_cons, hp1L]
        omega

theorem exists_min_len :
    ∀ (l : List String), l ≠ [] → ∃ a ∈ l, ∀ b ∈ l, a.length ≤ b.length := by
  intro l
  induction l with
  | nil => intro h; exact absurd rfl h
  | cons x xs ih =>
    intro _
    by_cases hxs : xs = []
    · subst hxs
      refine ⟨x, List.mem_cons_self _ _, ?_⟩
      intro b hb
      rcases List.mem_cons.mp hb with rfl | hb
      · exact Nat.le_refl _
      · exact absurd hb (List.not_mem_nil b)
    · obtain ⟨a, haMem, haMin⟩ := ih hxs
      by_cases hxa : x.length ≤ a.length
      · refine ⟨x, List.mem_cons_self _ _, ?_⟩
        intro b hb
        rcases List.mem_cons.mp hb with rfl | hb
        · exact Nat.le_refl _
        · exact Nat.le_trans hxa (haMin b hb)
      · refine ⟨a, List.mem_cons_of_mem _ haMem, ?_⟩
        intro b hb
        rcases List.mem_cons.mp hb with rfl | hb
        · exact Nat.le_of_lt (Nat.lt_of_not_le hxa)
        · exact haMin b hb

/-- Claim C7: whenever `remove_duplicate_patterns` terminates normally, no
pattern in its output is matched, as a glob, by a strictly shorter pattern
also in the output: every such longer pattern was removed during the pass. -/
theorem claim_C7 (ps qs : List String) (S L : String)
    (hok : remove_duplicate_patterns ps = Except.ok qs)
    (hS : S ∈ qs) (hL : L ∈ qs) (hlen : S.length < L.length) :
    url_matches_pattern L S = false := by
  cases hm : url_matches_pattern L S with
  | false => rfl
  | true =>
    exfalso
    unfold remove_duplicate_patterns at hok
    have hcnt := dedupOuter_count hm hlen hok hS
    have hpos : 0 < qs.count L := List.count_pos_iff.mpr hL
    omega

theorem claim_C7_witness :
    remove_duplicate_patterns ["/a/b", "/x*"] = Except.ok ["/a/b", "/x*"] ∧
    url_matches_pattern ("/a/b") ("/x*") = false := by
  have hok : remove_duplicate_patterns ["/a/b", "/x*"] =
      Except.ok ["/a/b", "/x*"] := by decide
  exact ⟨hok, claim_C7 ["/a/b", "/x*"] ["/a/b", "/x*"] ("/x*") ("/a/b") hok
    (by decide) (by decide) (by decide)⟩

/-- Claim C10: if the pattern list contains a strictly shorter pattern S
before a longer pattern L that S matches as a glob, `remove_duplicate_patterns`
fails with the uncaught ValueError raised by the second list removal of L
(re-examined from the outer loop's stale snapshot); consequently it can
terminate normally only when no such shorter-before-longer pair exists. -/
theorem claim_C10 (pre rest : List String) (S L : String)
    (hL : L ∈ rest) (hlen : S.length < L.length)
    (hm : url_matches_pattern L S = true) :
    remove_duplicate_patterns (pre ++ S :: rest) = Except.error ("ValueError") := by
  cases hres : remove_duplicate_patterns (pre ++ S :: rest) with
  | error e =>
    unfold remove_duplicate_patterns at hres
    rw [dedupOuter_error_msg hres]
  | ok qs =>
    exfalso
    unfold remove_duplicate_patterns at hres
    -- pick a minimal-length glob that matches L among the original patterns
    have hSfil : S ∈ (pre ++ S :: rest).filter
        (fun X => url_matches_pattern L X && decide (X.length < L.length)) := by
      refine List.mem_filter.mpr ⟨?_, ?_⟩
      · exact List.mem_append_right _ (List.mem_cons_self _ _)
      · simp [hm, hlen]
    obtain ⟨X0, hX0fil, hX0min⟩ := exists_min_len
      ((pre ++ S :: rest).filter
        (fun X => url_matches_pattern L X && decide (X.length < L.length)))
      (fun h0 => by rw [h0] at hSfil; exact List.not_mem_nil _ hSfil)
    have hX0ps : X0 ∈ pre ++ S :: rest := (List.mem_filter.mp hX0fil).1
    have hX0pr := (List.mem_filter.mp hX0fil).2
    simp only [Bool.and_eq_true, decide_eq_true_eq] at hX0pr
    have hX0m : url_matches_pattern L X0 = true := hX0pr.1
    have hX0lt : X0.length < L.length := hX0pr.2
    -- minimality: nothing in the original list can ever remove X0
    have H : ∀ W ∈ pre ++ S :: rest, W.length < X0.length →
        url_matches_pattern X0 W = false := by
      intro W hW hWlen
      cases hUW : url_matches_pattern X0 W with
      | false => rfl
      | true =>
        exfalso
        have hLW : url_matches_pattern L W = true :=
          url_matches_pattern_trans hUW hX0m
        have hWfil : W ∈ (pre ++ S :: rest).filter
            (fun X => url_matches_pattern L X && decide (X.length < L.length)) := by
          refine List.mem_filter.mpr ⟨hW, ?_⟩
          simp only [Bool.and_eq_true, decide_eq_true_eq]
          exact ⟨hLW, by omega⟩
        have := hX0min W hWfil
        omega
    -- hence X0 survives the whole pass
    have hpres := dedupOuter_preserve H (fun q hq => hq) (fun x hx => hx) hres
    have hX0qs : X0 ∈ qs := by
      have h1 : 0 < (pre ++ S :: rest).count X0 := List.count_pos_iff.mpr hX0ps
      exact List.count_pos_iff.mp (by rw [hpres]; exact h1)
    -- split the run at the outer iteration of S
    rw [dedupOuter_append] at hres
    cases hpre : dedupOuter pre (pre ++ S :: rest) with
    | error m => rw [hpre] at hres; simp only [exceptBind_error] at hres; cases hres
    | ok patsI =>
      rw [hpre] at hres
      simp only [exceptBind_ok] at hres
      rw [dedupOuter_cons] at hres
      cases hSin : dedupInner S patsI patsI with
      | error m => rw [hSin] at hres; simp only [exceptBind_error] at hres; cases hres
      | ok patsI2 =>
        rw [hSin] at hres
        simp only [exceptBind_ok] at hres
        -- count bookkeeping on copies of L
        have hX0pI : X0 ∈ patsI :=
          List.Sublist.mem
            (List.Sublist.mem hX0qs (dedupOuter_ok_sublist hres))
            (dedupInner_ok_sublist hSin)
        have hA := dedupOuter_count hX0m hX0lt hres hX0qs
        have hC := dedupOuter_count hX0m hX0lt hpre hX0pI
        have hD : (pre ++ S :: rest).count L = pre.count L + (S :: rest).count L :=
          List.count_append L pre (S :: rest)
        have hSneL : S ≠ L := fun hEq => by rw [hEq] at hlen; omega
        have hD2 : (S :: rest).count L = rest.count L := by
          simp [List.count_cons, hSneL]
        have hE : 0 < rest.count L := List.count_pos_iff.mpr hL
        by_cases hLpI : L ∈ patsI
        · have hB := dedupInner_decrease hSneL (by omega)
            (by rw [if_neg (show ¬ S.length > L.length by omega)])
            (by rw [if_pos hlen]; exact hm)
            hLpI hSin
          omega
        · have h0 : ¬ 0 < patsI.count L := fun hp => hLpI (List.count_pos_iff.mp hp)
          have hle := List.Sublist.count_le (dedupInner_ok_sublist hSin) L
          omega

theorem claim_C10_witness :
    ("/a/b") ∈ ["/a/b"] ∧
    remove_duplicate_patterns ["/a*", "/a/b"] = Except.error ("ValueError") :=
  ⟨by decide,
    claim_C10 [] ["/a/b"] ("/a*") ("/a/b") (by decide) (by decide) (by decide)⟩

/-! ## Claim C1: the pervasiveness threshold behind every output pattern -/

/-- The claim's per-month measure: the sum, over the paths of a working set
whose text matches the pattern, of the path's per-month summed occurrence
count (all content hashes).  The validation loop of the source adds only the
first hash's count for each matching path, so the source's sum never exceeds
this one (`validateDateFold_sum`). -/
def claimMonthSum (ppat d : String) : OriginMap → Nat
  | [] => 0
  | entry :: rest =>
    (if url_matches_pattern entry.1 ppat = true then monthTotal entry.2 d else 0) +
      claimMonthSum ppat d rest

theorem validateDateFold_sum {pat d : String} {st st' : List String × Nat}
    {entry : String × PathHist}
    (h : validateDateFold pat d st entry = Except.ok st') :
    st'.2 ≤ st.2 +
      (if url_matches_pattern entry.1 pat = true then monthTotal entry.2 d else 0) := by
  unfold validateDateFold at h
  by_cases hm : url_matches_pattern entry.1 pat = true
  · rw [if_pos hm] at h
    rw [if_pos hm]
    cases hg : alGet entry.2 d with
    | none =>
      rw [hg] at h
      simp only [exceptBind_ok] at h
      cases h
      unfold monthTotal
      rw [hg]
    | some htab =>
      rw [hg] at h
      cases htab with
      | nil =>
        simp only [exceptBind_error] at h
        cases h
      | cons e rest2 =>
        obtain ⟨hk, stat⟩ := e
        simp only [exceptBind_ok] at h
        cases h
        unfold monthTotal
        rw [hg]
        simp only [List.map_cons, List.sum_cons]
        omega
  · rw [if_neg hm] at h
    rw [if_neg hm]
    cases h
    omega

theorem validateInner_sum {pat d : String} {o : OriginMap} :
    ∀ {init r : List String × Nat},
      o.foldlM (validateDateFold pat d) init = Except.ok r →
      r.2 ≤ init.2 + claimMonthSum pat d o := by
  induction o with
  | nil =>
    intro init r h
    cases h
    simp [claimMonthSum]
  | cons entry o ih =>
    intro init r h
    rw [List.foldlM_cons] at h
    cases hstep : validateDateFold pat d init entry with
    | error m => rw [hstep] at h; simp only [exceptBind_error] at h; cases h
    | ok st1 =>
      rw [hstep] at h
      simp only [exceptBind_ok] at h
      have h1 := validateDateFold_sum hstep
      have h2 := ih h
      simp only [claimMonthSum]
      omega

theorem validateOuter_flag {o : OriginMap} {pat : String} :
    ∀ {ds : List String} {init v : List String × Bool},
      ds.foldlM (fun st d => do
          let r ← o.foldlM (validateDateFold pat d) (st.1, 0)
          Except.ok (r.1, st.2 && decide (r.2 ≥ PERVASIVE_COUNT))) init =
        Except.ok v →
      v.2 = true →
      init.2 = true ∧ ∀ d ∈ ds, ∃ (l : List String) (r : List String × Nat),
        o.foldlM (validateDateFold pat d) (l, 0) = Except.ok r ∧
        PERVASIVE_COUNT ≤ r.2 := by
  intro ds
  induction ds with
  | nil =>
    intro init v h hv
    cases h
    exact ⟨hv, fun d hd => absurd hd (List.not_mem_nil d)⟩
  | cons d ds ih =>
    intro init v h hv
    rw [List.foldlM_cons] at h
    cases hin : o.foldlM (validateDateFold pat d) (init.1, 0) with
    | error m => rw [hin] at h; simp only [exceptBind_error] at h; cases h
    | ok r =>
      rw [hin] at h
      simp only [exceptBind_ok] at h
      obtain ⟨hflag, hrest⟩ := ih h hv
      simp only [Bool.and_eq_true, decide_eq_true_eq] at hflag
      refine ⟨hflag.1, ?_⟩
      intro d2 hd2
      rcases List.mem_cons.mp hd2 with rfl | hd2
      · exact ⟨init.1, r, hin, hflag.2⟩
      · exact hrest d2 hd2

theorem validateDates_threshold {o : OriginMap} {pat : String} {dates : List String}
    {v : List String × Bool} (hok : validateDates o pat dates = Except.ok v)
    (hv : v.2 = true) :
    ∀ d ∈ dates, PERVASIVE_COUNT ≤ claimMonthSum pat d o := by
  unfold validateDates at hok
  intro d hd
  obtain ⟨-, hall⟩ := validateOuter_flag hok hv
  obtain ⟨l, r, hin, hge⟩ := hall d hd
  have := validateInner_sum hin
  omega

theorem insertSorted_mem {α : Type} {le : α → α → Bool} {x y : α} :
    ∀ {l : List α}, y ∈ insertSorted le x l → y = x ∨ y ∈ l := by
  intro l
  induction l with
  | nil =>
    intro h
    rcases List.mem_singleton.mp h with rfl
    exact Or.inl rfl
  | cons z zs ih =>
    intro h
    rw [insertSorted] at h
    by_cases hle : le x z = true
    · rw [if_pos hle] at h
      rcases List.mem_cons.mp h with rfl | h2
      · exact Or.inl rfl
      · exact Or.inr h2
    · rw [if_neg hle] at h
      rcases List.mem_cons.mp h with rfl | h2
      · exact Or.inr (List.mem_cons_self _ _)
      · rcases ih h2 with h3 | h3
        · exact Or.inl h3
        · exact Or.inr (List.mem_cons_of_mem _ h3)

theorem sortBy_mem {α : Type} {le : α → α → Bool} {y : α} :
    ∀ {l : List α}, y ∈ sortBy le l → y ∈ l := by
  intro l
  induction l with
  | nil => intro h; exact absurd h (List.not_mem_nil y)
  | cons x xs ih =>
    intro h
    rw [sortBy] at h
    rcases insertSorted_mem h with rfl | h2
    · exact List.mem_cons_self _ _
    · exact List.mem_cons_of_mem _ (ih h2)

theorem pervasiveStep_evidence (dates : List String) (origin : String)
    (acc : OriginMap × List String) (k : String) :
    List.Sublist (pervasiveStep dates origin acc k).1 acc.1 ∧
    ∀ u ∈ (pervasiveStep dates origin acc k).2, u ∈ acc.2 ∨
      ∃ p2 hist, (p2, hist) ∈ acc.1 ∧ u = origin ++ p2 ∧
        ∀ d ∈ dates, PERVASIVE_COUNT ≤ monthTotal hist d := by
  cases hg : alGet acc.1 k with
  | none =>
    rw [pervasiveStep_none hg]
    exact ⟨List.Sublist.refl _, fun u hu => Or.inl hu⟩
  | some hist =>
    rw [pervasiveStep_some hg]
    by_cases hlen : hist.length = dates.length
    · rw [if_pos hlen]
      by_cases hchk : pervasiveCheck hist dates = true
      · rw [if_pos hchk]
        refine ⟨alErase_sublist _ _, ?_⟩
        intro u hu
        by_cases hcon : acc.2.contains (origin ++ k) = true
        · rw [if_pos hcon] at hu
          exact Or.inl hu
        · rw [if_neg hcon] at hu
          rcases List.mem_append.mp hu with hu1 | hu1
          · exact Or.inl hu1
          · rcases List.mem_singleton.mp hu1 with rfl
            exact Or.inr ⟨k, hist, alGet_mem hg, rfl,
              (pervasiveCheck_iff hist dates).mp hchk⟩
      · rw [if_neg hchk]
        exact ⟨List.Sublist.refl _, fun u hu => Or.inl hu⟩
    · rw [if_neg hlen]
      exact ⟨List.Sublist.refl _, fun u hu => Or.inl hu⟩

theorem fpervFold_evidence (dates : List String) (origin : String) :
    ∀ (keys : List String) (acc : OriginMap × List String),
      List.Sublist ((keys.foldl (pervasiveStep dates origin) acc)).1 acc.1 ∧
      ∀ u ∈ (keys.foldl (pervasiveStep dates origin) acc).2, u ∈ acc.2 ∨
        ∃ p2 hist, (p2, hist) ∈ acc.1 ∧ u = origin ++ p2 ∧
          ∀ d ∈ dates, PERVASIVE_COUNT ≤ monthTotal hist d := by
  intro keys
  induction keys with
  | nil => intro acc; exact ⟨List.Sublist.refl _, fun u hu => Or.inl hu⟩
  | cons k keys ih =>
    intro acc
    rw [List.foldl_cons]
    obtain ⟨hs1, he1⟩ := pervasiveStep_evidence dates origin acc k
    obtain ⟨hs2, he2⟩ := ih (pervasiveStep dates origin acc k)
    refine ⟨List.Sublist.trans hs2 hs1, ?_⟩
    intro u hu
    rcases he2 u hu with hu2 | ⟨p2, hist, hmem, hue, hth⟩
    · exact he1 u hu2
    · exact Or.inr ⟨p2, hist, List.Sublist.mem hmem hs1, hue, hth⟩

theorem find_pervasive_origin_evidence (dates : List String) (origin : String)
    (o : OriginMap) (pats : List String) :
    List.Sublist (find_pervasive_origin dates origin o pats).1 o ∧
    ∀ u ∈ (find_pervasive_origin dates origin o pats).2, u ∈ pats ∨
      ∃ p2 hist, (p2, hist) ∈ o ∧ u = origin ++ p2 ∧
        ∀ d ∈ dates, PERVASIVE_COUNT ≤ monthTotal hist d := by
  unfold find_pervasive_origin
  exact fpervFold_evidence dates origin (alKeys o) (o, pats)

theorem fpuStep_evidence (dates : List String) (idx : Index)
    (acc : Index × List String) (k : String)
    (hinv : ∀ org omap, alGet acc.1 org = some omap →
      ∃ omap0, alGet idx org = some omap0 ∧ List.Sublist omap omap0) :
    (∀ org omap, alGet (fpuStep dates acc k).1 org = some omap →
      ∃ omap0, alGet idx org = some omap0 ∧ List.Sublist omap omap0) ∧
    ∀ u ∈ (fpuStep dates acc k).2, u ∈ acc.2 ∨
      ∃ org omap0 p2 hist, alGet idx org = some omap0 ∧
        (p2, hist) ∈ omap0 ∧ u = org ++ p2 ∧
        ∀ d ∈ dates, PERVASIVE_COUNT ≤ monthTotal hist d := by
  cases hg : alGet acc.1 k with
  | none =>
    rw [fpuStep_none hg]
    exact ⟨hinv, fun u hu => Or.inl hu⟩
  | some o =>
    rw [fpuStep_some hg]
    obtain ⟨omap0, hidx0, hsub0⟩ := hinv k o hg
    obtain ⟨hfs, hfe⟩ := find_pervasive_origin_evidence dates k o acc.2
    constructor
    · intro org omap hgm
      by_cases hko : org = k
      · subst hko
        rw [alGet_set_self] at hgm
        injection hgm with h2
        subst h2
        exact ⟨omap0, hidx0, List.Sublist.trans hfs hsub0⟩
      · rw [alGet_set_ne _ _ _ _ (fun he => hko he.symm)] at hgm
        exact hinv org omap hgm
    · intro u hu
      rcases hfe u hu with hu1 | ⟨p2, hist, hmem, hue, hth⟩
      · exact Or.inl hu1
      · exact Or.inr ⟨k, omap0, p2, hist, hidx0,
          List.Sublist.mem hmem hsub0, hue, hth⟩

theorem fpuFold_evidence (dates : List String) (idx : Index) :
    ∀ (keys : List String) (acc : Index × List String),
      (∀ org omap, alGet acc.1 org = some omap →
        ∃ omap0, alGet idx org = some omap0 ∧ List.Sublist omap omap0) →
      ∀ u ∈ (keys.foldl (fpuStep dates) acc).2, u ∈ acc.2 ∨
        ∃ org omap0 p2 hist, alGet idx org = some omap0 ∧
          (p2, hist) ∈ omap0 ∧ u = org ++ p2 ∧
          ∀ d ∈ dates, PERVASIVE_COUNT ≤ monthTotal hist d := by
  intro keys
  induction keys with
  | nil => intro acc hinv u hu; exact Or.inl hu
  | cons k keys ih =>
    intro acc hinv u hu
    rw [List.foldl_cons] at hu
    obtain ⟨hinv2, hev⟩ := fpuStep_evidence dates idx acc k hinv
    rcases ih (fpuStep dates acc k) hinv2 u hu with hu1 | hev2
    · exact hev u hu1
    · exact Or.inr hev2

theorem find_pervasive_urls_evidence (dates : List String) (idx : Index)
    (pats : List String) :
    ∀ u ∈ (find_pervasive_urls dates idx pats).2, u ∈ pats ∨
      ∃ org omap0 p2 hist, alGet idx org = some omap0 ∧
        (p2, hist) ∈ omap0 ∧ u = org ++ p2 ∧
        ∀ d ∈ dates, PERVASIVE_COUNT ≤ monthTotal hist d := by
  rw [find_pervasive_urls_eq_fold]
  exact fpuFold_evidence dates idx (alKeys idx) (idx, pats)
    (fun org omap hg => ⟨omap, hg, List.Sublist.refl _⟩)

theorem exceptBind_ok_inv {e a b : Type} {x : Except e a} {k : a → Except e b}
    {r : b} (h : (x >>= k) = Except.ok r) :
    ∃ y, x = Except.ok y ∧ k y = Except.ok r := by
  cases x with
  | error m => rw [exceptBind_error] at h; cases h
  | ok y => exact ⟨y, rfl, h⟩

theorem processSeed_evidence {dates : List String} {cur : String} {dests : Dests}
    {origin path : String} {st r : OriginMap × List String}
    (h : processSeed dates cur dests origin st path = Except.ok r) :
    List.Sublist r.1 st.1 ∧
      (r.2 = st.2 ∨ ∃ (ppat : String) (v : List String × Bool),
        validateDates st.1 ppat dates = Except.ok v ∧ v.2 = true ∧
        r.2 = st.2 ++ [origin ++ ppat]) := by
  unfold processSeed at h
  dsimp only at h
  split at h
  · split at h
    · -- the month table is absent: state unchanged
      injection h with h2
      subst h2
      exact ⟨List.Sublist.refl _, Or.inl rfl⟩
    · -- empty hash table: IndexError
      cases h
    · -- main branch
      obtain ⟨rr, hrr, h⟩ := exceptBind_ok_inv h
      split at h
      · injection h with h2
        subst h2
        exact ⟨List.Sublist.refl _, Or.inl rfl⟩
      · split at h
        · injection h with h2
          subst h2
          exact ⟨List.Sublist.refl _, Or.inl rfl⟩
        · obtain ⟨v, hval, h⟩ := exceptBind_ok_inv h
          by_cases hv : v.2 = true
          · rw [if_pos hv] at h
            injection h with h2
            subst h2
            exact ⟨removeMatched_sublist _ _, Or.inr ⟨_, v, hval, hv, rfl⟩⟩
          · rw [if_neg hv] at h
            injection h with h2
            subst h2
            exact ⟨removeMatched_sublist _ _, Or.inl rfl⟩
  · injection h with h2
    subst h2
    exact ⟨List.Sublist.refl _, Or.inl rfl⟩

theorem processSeedFold_evidence {dates : List String} {cur : String}
    {dests : Dests} {origin : String} :
    ∀ {keys : List String} {st r : OriginMap × List String},
      keys.foldlM (processSeed dates cur dests origin) st = Except.ok r →
      List.Sublist r.1 st.1 ∧
      ∀ p ∈ r.2, p ∈ st.2 ∨ ∃ (o2 : OriginMap) (ppat : String) (v : List String × Bool),
        List.Sublist o2 st.1 ∧ validateDates o2 ppat dates = Except.ok v ∧
        v.2 = true ∧ p = origin ++ ppat := by
  intro keys
  induction keys with
  | nil =>
    intro st r h
    cases h
    exact ⟨List.Sublist.refl _, fun p hp => Or.inl hp⟩
  | cons k keys ih =>
    intro st r h
    rw [List.foldlM_cons] at h
    cases hstep : processSeed dates cur dests origin st k with
    | error m => rw [hstep] at h; simp only [exceptBind_error] at h; cases h
    | ok st1 =>
      rw [hstep] at h
      simp only [exceptBind_ok] at h
      obtain ⟨hs1, hp1⟩ := processSeed_evidence hstep
      obtain ⟨hs2, hp2⟩ := ih h
      refine ⟨List.Sublist.trans hs2 hs1, ?_⟩
      intro p hp
      rcases hp2 p hp with hin | ⟨o2, ppat, v, hsub, hval, hv2, hpe⟩
      · rcases hp1 with heq | ⟨ppat, v, hval, hv2, heq⟩
        · rw [heq] at hin
          exact Or.inl hin
        · rw [heq] at hin
          rcases List.mem_append.mp hin with hin2 | hin2
          · exact Or.inl hin2
          · rcases List.mem_singleton.mp hin2 with rfl
            exact Or.inr ⟨st.1, ppat, v, List.Sublist.refl _, hval, hv2, rfl⟩
      · exact Or.inr ⟨o2, ppat, v, List.Sublist.trans hsub hs1, hval, hv2, hpe⟩

theorem find_patterns_origin_evidence {dates : List String} {cur : String}
    {dests : Dests} {origin : String} {o : OriginMap} {patterns : List String}
    {r : OriginMap × List String}
    (h : find_patterns_origin dates cur dests origin o patterns = Except.ok r) :
    List.Sublist r.1 o ∧
    ∀ p ∈ r.2, p ∈ patterns ∨ ∃ (o2 : OriginMap) (ppat : String) (v : List String × Bool),
      List.Sublist o2 o ∧ validateDates o2 ppat dates = Except.ok v ∧
      v.2 = true ∧ p = origin ++ ppat := by
  unfold find_patterns_origin at h
  exact processSeedFold_evidence h

theorem fpFold_evidence {dates : List String} {cur : String} {dests : Dests}
    {idx : Index} :
    ∀ {keys : List String} {acc r : Index × List String},
      (∀ org omap, alGet acc.1 org = some omap →
        ∃ omap0, alGet idx org = some omap0 ∧ List.Sublist omap omap0) →
      keys.foldlM (fun acc origin =>
        match alGet acc.1 origin with
        | none => Except.ok acc
        | some o => do
          let r ← find_patterns_origin dates cur dests origin o acc.2
          Except.ok (alSet acc.1 origin r.1, r.2)) acc = Except.ok r →
      ∀ p ∈ r.2, p ∈ acc.2 ∨
        ∃ (org : String) (omap0 : OriginMap) (o2 : OriginMap) (ppat : String) (v : List String × Bool),
          alGet idx org = some omap0 ∧ List.Sublist o2 omap0 ∧
          validateDates o2 ppat dates = Except.ok v ∧ v.2 = true ∧
          p = org ++ ppat := by
  intro keys
  induction keys with
  | nil =>
    intro acc r hinv h p hp
    cases h
    exact Or.inl hp
  | cons k keys ih =>
    intro acc r hinv h p hp
    rw [List.foldlM_cons] at h
    cases hg : alGet acc.1 k with
    | none =>
      rw [hg] at h
      exact ih hinv h p hp
    | some o =>
      rw [hg] at h
      obtain ⟨acc1, hstep, h2⟩ := exceptBind_ok_inv h
      obtain ⟨ro, hro, hg2⟩ := exceptBind_ok_inv hstep
      injection hg2 with hg3
      subst hg3
      obtain ⟨omap0, hidx0, hsub0⟩ := hinv k o hg
      obtain ⟨hroSub, hroEv⟩ := find_patterns_origin_evidence hro
      have hinv2 : ∀ org omap, alGet (alSet acc.1 k ro.1) org = some omap →
          ∃ omap1, alGet idx org = some omap1 ∧ List.Sublist omap omap1 := by
        intro org omap hgm
        by_cases hko : org = k
        · subst hko
          rw [alGet_set_self] at hgm
          injection hgm with h3
          subst h3
          exact ⟨omap0, hidx0, List.Sublist.trans hroSub hsub0⟩
        · rw [alGet_set_ne _ _ _ _ (fun he => hko he.symm)] at hgm
          exact hinv org omap hgm
      rcases ih hinv2 h2 p hp with hin | hev
      · rcases hroEv p hin with hin2 | ⟨o2, ppat, v, hsub, hval, hv2, hpe⟩
        · exact Or.inl hin2
        · exact Or.inr ⟨k, omap0, o2, ppat, v, hidx0,
            List.Sublist.trans hsub hsub0, hval, hv2, hpe⟩
      · exact Or.inr hev

/-- Claim C1: every pattern in the final output of `aggregate_urls` passed
the pervasiveness threshold in every tracked month.  It is either an exact
pervasive-fixed url whose path's per-month summed occurrence count reaches
`PERVASIVE_COUNT` in every tracked month, or a synthesized pattern whose
validation ran on the working set `o2` (a sub-collection of the
post-classification origin map) and succeeded, so that for every tracked
month the occurrence counts summed over the matching paths of `o2` reach
`PERVASIVE_COUNT`. -/
theorem claim_C1 (dates : List String) (months : List (List RawEntry))
    (pats : List String) (p : String)
    (hok : aggregate_urls dates months = Except.ok pats) (hp : p ∈ pats) :
    ∃ st : LoadState,
      loadMonths (dates.headD ("")) (dates.zip months)
        { origins := [], destinations := [] } = Except.ok st ∧
      ((∃ (org : String) (omap : OriginMap) (path : String) (hist : PathHist),
          alGet st.origins org = some omap ∧ (path, hist) ∈ omap ∧
          p = org ++ path ∧
          ∀ d ∈ dates, PERVASIVE_COUNT ≤ monthTotal hist d) ∨
       (∃ (org : String) (omap0 : OriginMap) (o2 : OriginMap) (ppat : String)
          (v : List String × Bool),
          alGet (remove_blocked_urls (remove_unversioned_urls (remove_static_urls
            dates (remove_long_urls (find_pervasive_urls dates st.origins []).1))))
            org = some omap0 ∧
          List.Sublist o2 omap0 ∧
          validateDates o2 ppat dates = Except.ok v ∧ v.2 = true ∧
          p = org ++ ppat ∧
          ∀ d ∈ dates, PERVASIVE_COUNT ≤ claimMonthSum ppat d o2)) := by
  unfold aggregate_urls at hok
  obtain ⟨st, hload, hok⟩ := exceptBind_ok_inv hok
  obtain ⟨r2, hfp, hok⟩ := exceptBind_ok_inv hok
  obtain ⟨dps, hdd, hok⟩ := exceptBind_ok_inv hok
  injection hok with hpats
  subst hpats
  have hp1 : p ∈ dps := sortBy_mem hp
  have hsub : List.Sublist dps r2.2 :=
    dedupOuter_ok_sublist (by unfold remove_duplicate_patterns at hdd; exact hdd)
  have hp2 : p ∈ r2.2 := List.Sublist.mem hp1 hsub
  refine ⟨st, hload, ?_⟩
  have hev := fpFold_evidence (fun org omap hg => ⟨omap, hg, List.Sublist.refl _⟩)
    (by unfold find_patterns at hfp; exact hfp) p hp2
  rcases hev with hin | ⟨org, omap0, o2, ppat, v, hidx0, hsubo, hval, hv2, hpe⟩
  · rcases find_pervasive_urls_evidence dates st.origins [] p hin with
      h0 | ⟨org, omap0, p2, hist, hg0, hmem, hpe, hth⟩
    · exact absurd h0 (List.not_mem_nil p)
    · exact Or.inl ⟨org, omap0, p2, hist, hg0, hmem, hpe, hth⟩
  · exact Or.inr ⟨org, omap0, o2, ppat, v, hidx0, hsubo, hval, hv2, hpe,
      validateDates_threshold hval hv2⟩

def scen1dates : List String := ["2025-10", "2025-09"]

def scen1months : List (List RawEntry) :=
  [[mkEntry ("https://w.com/app.js") ("h1") ("script") 500 100001],
   [mkEntry ("https://w.com/app.js") ("h1") ("script") 500 100001]]

theorem claim_C1_witness :
    aggregate_urls scen1dates scen1months = Except.ok ["https://w.com/app.js"] ∧
    (∃ st : LoadState,
      loadMonths (scen1dates.headD ("")) (scen1dates.zip scen1months)
        { origins := [], destinations := [] } = Except.ok st ∧
      ((∃ (org : String) (omap : OriginMap) (path : String) (hist : PathHist),
          alGet st.origins org = some omap ∧ (path, hist) ∈ omap ∧
          ("https://w.com/app.js") = org ++ path ∧
          ∀ d ∈ scen1dates, PERVASIVE_COUNT ≤ monthTotal hist d) ∨
       (∃ (org : String) (omap0 : OriginMap) (o2 : OriginMap) (ppat : String)
          (v : List String × Bool),
          alGet (remove_blocked_urls (remove_unversioned_urls (remove_static_urls
            scen1dates (remove_long_urls
              (find_pervasive_urls scen1dates st.origins []).1))))
            org = some omap0 ∧
          List.Sublist o2 omap0 ∧
          validateDates o2 ppat scen1dates = Except.ok v ∧ v.2 = true ∧
          ("https://w.com/app.js") = org ++ ppat ∧
          ∀ d ∈ scen1dates, PERVASIVE_COUNT ≤ claimMonthSum ppat d o2))) :=
  ⟨by decide, claim_C1 scen1dates scen1months ["https://w.com/app.js"]
    ("https://w.com/app.js") (by decide) (by decide)⟩

end Pervasive
